import Mathlib

set_option maxHeartbeats 1000000

/-!
Verification of the bytecode-compiler backend pipeline declared in
`Include/internal/pycore_compile.h` and `Include/internal/pycore_flowgraph.h`.
The repository ships only the header declarations; every operation below is
therefore modelled from the specification document, faithful to its words,
and the claims are settled against those models.
-/

namespace CPyCompile

/-! ### The data model and the operations, modelled from the spec -/

/-- Source location quadruple from `_PyCompilerSrcLocation`;
the sentinel `(-1,-1,-1,-1)` is `NO_LOCATION` (pycore_compile.h line 30). -/
structure SrcLocation where
  lineno : Int
  col_offset : Int
  end_lineno : Int
  end_col_offset : Int
deriving DecidableEq

def NO_LOCATION : SrcLocation := ⟨-1, -1, -1, -1⟩

/-- `_PyCompile_ExceptHandlerInfo` (pycore_compile.h lines 38-42):
handler target label, expected stack depth at handler entry, and the
preserve-lasti flag.  `h_label = -1` marks "no active handler". -/
structure ExceptHandlerInfo where
  h_label : Int
  h_startdepth : Int
  h_preserve_lasti : Int
deriving DecidableEq

def noHandler : ExceptHandlerInfo := ⟨-1, -1, -1⟩

/-- `_PyCompile_Instruction` (pycore_compile.h lines 44-53): opcode, integer
operand, source location, except-handler info, plus the two assembler-only
fields `i_target` and `i_offset`. -/
structure Instruction where
  i_opcode : Int
  i_oparg : Int
  i_loc : SrcLocation
  i_except_handler_info : ExceptHandlerInfo
  i_target : Int
  i_offset : Int
deriving DecidableEq

/-- Plain instruction constructor: no location, no handler, unresolved
assembler fields. -/
def mkInstr (op arg : Int) : Instruction :=
  ⟨op, arg, NO_LOCATION, noHandler, -1, -1⟩

/-- Instruction with explicit handler info. -/
def mkInstrH (op arg : Int) (h : ExceptHandlerInfo) : Instruction :=
  ⟨op, arg, NO_LOCATION, h, -1, -1⟩

/-- Modelled from the spec: the operand kind of an operation code (§3:
"integer operand (meaning depends on opcode: constant index, name index,
variable slot, jump target, or raw immediate)"; §6 lists the eight
classification queries).  `noArg` marks a valid opcode without operand. -/
inductive ArgKind where
  | noArg
  | constArg
  | nameArg
  | jumpArg
  | freeArg
  | localArg
  | excArg
  | immArg
deriving DecidableEq

/- Concrete operation codes of the fixed operation-code table.  The numeric
values are model choices; the classification structure is what matters. -/
def RETURN_VALUE : Int := 1

def BINARY_ADD : Int := 2

def LOAD_CONST : Int := 3

def LOAD_NAME : Int := 4

def STORE_NAME : Int := 5

def LOAD_FAST : Int := 6

def STORE_FAST : Int := 7

def LOAD_DEREF : Int := 8

def JUMP : Int := 9

def POP_JUMP_IF_FALSE : Int := 10

def POP_JUMP_IF_TRUE : Int := 11

def SETUP_FINALLY : Int := 12

def RAISE_VARARGS : Int := 13

def EXTENDED_ARG : Int := 14

def POP_TOP : Int := 15

def NOP : Int := 16

def UNARY_NOT : Int := 17

/-- Modelled from the spec: the fixed operation-code table behind the pure
classification queries (§6).  Returns `none` for an invalid opcode, and the
operand kind for a valid one. -/
def opcodeKind (op : Int) : Option ArgKind :=
  if op = RETURN_VALUE then some .noArg
  else if op = BINARY_ADD then some .noArg
  else if op = LOAD_CONST then some .constArg
  else if op = LOAD_NAME then some .nameArg
  else if op = STORE_NAME then some .nameArg
  else if op = LOAD_FAST then some .localArg
  else if op = STORE_FAST then some .localArg
  else if op = LOAD_DEREF then some .freeArg
  else if op = JUMP then some .jumpArg
  else if op = POP_JUMP_IF_FALSE then some .jumpArg
  else if op = POP_JUMP_IF_TRUE then some .jumpArg
  else if op = SETUP_FINALLY then some .excArg
  else if op = RAISE_VARARGS then some .immArg
  else if op = EXTENDED_ARG then some .immArg
  else if op = POP_TOP then some .noArg
  else if op = NOP then some .noArg
  else if op = UNARY_NOT then some .noArg
  else none

/-- `_PyCompile_OpcodeIsValid` (pycore_compile.h line 108).
Modelled from the spec: membership in the fixed operation-code table. -/
def _PyCompile_OpcodeIsValid (op : Int) : Bool :=
  (opcodeKind op).isSome

/-- `_PyCompile_OpcodeHasArg` (pycore_compile.h line 109). -/
def _PyCompile_OpcodeHasArg (op : Int) : Bool :=
  match opcodeKind op with
  | some k => decide (k ≠ ArgKind.noArg)
  | none => false

/-- `_PyCompile_OpcodeHasConst` (pycore_compile.h line 110). -/
def _PyCompile_OpcodeHasConst (op : Int) : Bool :=
  decide (opcodeKind op = some ArgKind.constArg)

/-- `_PyCompile_OpcodeHasName` (pycore_compile.h line 111). -/
def _PyCompile_OpcodeHasName (op : Int) : Bool :=
  decide (opcodeKind op = some ArgKind.nameArg)

/-- `_PyCompile_OpcodeHasJump` (pycore_compile.h line 112). -/
def _PyCompile_OpcodeHasJump (op : Int) : Bool :=
  decide (opcodeKind op = some ArgKind.jumpArg)

/-- `_PyCompile_OpcodeHasFree` (pycore_compile.h line 113). -/
def _PyCompile_OpcodeHasFree (op : Int) : Bool :=
  decide (opcodeKind op = some ArgKind.freeArg)

/-- `_PyCompile_OpcodeHasLocal` (pycore_compile.h line 114). -/
def _PyCompile_OpcodeHasLocal (op : Int) : Bool :=
  decide (opcodeKind op = some ArgKind.localArg)

/-- `_PyCompile_OpcodeHasExc` (pycore_compile.h line 115). -/
def _PyCompile_OpcodeHasExc (op : Int) : Bool :=
  decide (opcodeKind op = some ArgKind.excArg)

/-- An instruction whose operand is a target label: a jump proper or an
exception-setup pseudo instruction (spec §3: jump operands; §4.3: exception
edges). -/
def opcodeHasTarget (op : Int) : Bool :=
  _PyCompile_OpcodeHasJump op || _PyCompile_OpcodeHasExc op

/-- Modelled from the spec (§7, §9): the two-variant result duality — a
structured user-facing error and an internal fatal error. -/
inductive CompileError where
  | user : SrcLocation → String → CompileError
  | internal : String → CompileError
deriving DecidableEq

/-- The fatal internal error raised when a referenced label was never bound
(spec §4.1: "fails — fatal, non-recoverable — if any referenced label was
never bound"). -/
def unboundLabel : CompileError := .internal "label used but not bound"

/-- `_PyCompile_InstructionSequence` (pycore_compile.h lines 55-63).
Modelled from the spec (§3): ordered growable collection of instructions, a
label map (label id → instruction offset, `-1` = not yet bound, mirroring the
C array), and the monotonically increasing label-id counter.  The label map
is a pointer in the C struct; `none` models the consumed (already applied)
state of the one-time finalization step (§3, §9). -/
structure InstructionSequence where
  s_instrs : List Instruction
  s_labelmap : Option (List Int)
  s_next_free_label : Nat
deriving DecidableEq

/-- Look a label id up in the label map: `none` when the id is out of range
or the slot still holds the unbound sentinel `-1`. -/
def resolveLabel (lm : List Int) (lbl : Int) : Option Int :=
  if lbl < 0 then none
  else
    match lm.get? lbl.toNat with
    | some off => if off < 0 then none else some off
    | none => none

/-- Modelled from the spec (§4.1): declare a fresh label — returns a new
numeric id and grows the label map with an unbound slot. -/
def newLabel (seq : InstructionSequence) : InstructionSequence × Int :=
  let lbl := seq.s_next_free_label
  ({ seq with
      s_labelmap := seq.s_labelmap.map (fun lm => lm ++ [-1]),
      s_next_free_label := lbl + 1 }, Int.ofNat lbl)

/-- `_PyCompile_InstructionSequence_UseLabel` (pycore_compile.h line 65).
Modelled from the spec (§4.1): bind a label to the current position; fails if
the label was already bound or the position is invalid. -/
def _PyCompile_InstructionSequence_UseLabel (seq : InstructionSequence)
    (lbl : Int) : Except CompileError InstructionSequence :=
  match seq.s_labelmap with
  | none => .error (.internal "label map already applied")
  | some lm =>
    if lbl < 0 ∨ lm.length ≤ lbl.toNat then
      .error (.internal "undeclared label")
    else if 0 ≤ lm.getD lbl.toNat (-1) then
      .error (.internal "label already bound")
    else
      .ok { seq with
        s_labelmap := some (lm.set lbl.toNat (Int.ofNat seq.s_instrs.length)) }

/-- `_PyCompile_InstructionSequence_Addop` (pycore_compile.h lines 66-68).
Modelled from the spec (§4.1): append an instruction, validating the opcode
against the fixed operation-code table. -/
def _PyCompile_InstructionSequence_Addop (seq : InstructionSequence)
    (opcode oparg : Int) (loc : SrcLocation) :
    Except CompileError InstructionSequence :=
  if _PyCompile_OpcodeIsValid opcode then
    .ok { seq with
      s_instrs := seq.s_instrs ++ [⟨opcode, oparg, loc, noHandler, -1, -1⟩] }
  else
    .error (.internal "invalid opcode")

/-- Resolve an instruction's active except-handler label under the label
map; an unbound reference is the fatal internal error. -/
def applyHandlerLabel (lm : List Int) (i : Instruction) :
    Except CompileError Instruction :=
  if 0 ≤ i.i_except_handler_info.h_label then
    match resolveLabel lm i.i_except_handler_info.h_label with
    | some off =>
        .ok { i with
          i_except_handler_info := { i.i_except_handler_info with h_label := off } }
    | none => .error unboundLabel
  else
    .ok i

/-- Rewrite one instruction under the label map: a jump (or exception-setup)
operand is replaced by the label's resolved offset, and an active handler
label is likewise resolved; an unbound reference is the fatal internal
error. -/
def applyLabelMapInstr (lm : List Int) (i : Instruction) :
    Except CompileError Instruction :=
  if opcodeHasTarget i.i_opcode then
    match resolveLabel lm i.i_oparg with
    | some off => applyHandlerLabel lm { i with i_oparg := off }
    | none => .error unboundLabel
  else
    applyHandlerLabel lm i

/-- Rewrite every instruction of the list under the label map, propagating
the first unbound-label failure. -/
def mapApplyInstrs (lm : List Int) : List Instruction →
    Except CompileError (List Instruction)
  | [] => .ok []
  | i :: rest =>
    match applyLabelMapInstr lm i with
    | .error e => .error e
    | .ok i' =>
      match mapApplyInstrs lm rest with
      | .error e => .error e
      | .ok rest' => .ok (i' :: rest')

/-- `_PyCompile_InstructionSequence_ApplyLabelMap` (pycore_compile.h line 69).
Modelled from the spec (§3, §4.1): the one-time finalization step — rewrites
every jump operand from symbolic label id to resolved offset, consuming the
label map; fails fatally if any referenced label was never bound; a second
application finds the map consumed and returns the sequence unchanged. -/
def _PyCompile_InstructionSequence_ApplyLabelMap (seq : InstructionSequence) :
    Except CompileError InstructionSequence :=
  match seq.s_labelmap with
  | none => .ok seq
  | some lm =>
    match mapApplyInstrs lm seq.s_instrs with
    | .error e => .error e
    | .ok instrs => .ok { seq with s_instrs := instrs, s_labelmap := none }

/-- A concrete open sequence: a forward jump to label 0, bound at offset 1. -/
def seqC2 : InstructionSequence :=
  ⟨[mkInstr JUMP 0, mkInstr LOAD_CONST 0, mkInstr RETURN_VALUE 0], some [1], 1⟩

/-- `seqC2` after finalization: the jump operand resolved to offset 1, the
label map consumed. -/
def seqC2done : InstructionSequence :=
  ⟨[mkInstr JUMP 1, mkInstr LOAD_CONST 0, mkInstr RETURN_VALUE 0], none, 1⟩

/-- A concrete sequence whose only jump references label 0, never bound
(the label-map slot still holds the `-1` sentinel). -/
def seqC3 : InstructionSequence :=
  ⟨[mkInstr JUMP 0, mkInstr RETURN_VALUE 0], some [-1], 1⟩

/-- Index of the first occurrence of a value in the table, if present. -/
def findIdx? {α : Type} [DecidableEq α] (v : α) : List α → Option Nat
  | [] => none
  | x :: rest => if x = v then some 0 else (findIdx? v rest).map (· + 1)

/-- `_PyCompile_ConstCacheMergeOne` (pycore_compile.h line 104).
Modelled from the spec (§4.2): intern a constant into the table — return the
existing index when an equal value is already present (value-equality dedup),
otherwise append the value and return the fresh index; the updated table is
returned alongside the index. -/
def _PyCompile_ConstCacheMergeOne {α : Type} [DecidableEq α]
    (cache : List α) (v : α) : List α × Nat :=
  match findIdx? v cache with
  | some i => (cache, i)
  | none => (cache ++ [v], cache.length)

/-- Modelled from the spec (§4.1): the capacity a growth request targets —
doubling strategy with a configurable initial capacity, jumping directly
past the requested index when doubling is not enough. -/
def growTarget (idx alloc default_alloc : Nat) : Nat :=
  if alloc = 0 then
    (if default_alloc ≤ idx then idx + default_alloc else default_alloc)
  else
    (if 2 * alloc ≤ idx then idx + default_alloc else 2 * alloc)

/-- `_PyCompile_EnsureArrayLargeEnough` (pycore_compile.h lines 97-102).
Modelled from the spec (§4.1): the single generic capacity-growth routine
behind every growable table.  The C item size is subsumed by the element
type `α`; `canAlloc` models the allocator (which may be exhausted), `z` the
zero-fill of freshly allocated slots.  On success the buffer, extended in
place, and the new capacity are returned; on allocation failure a
distinguishable error code is returned. -/
def _PyCompile_EnsureArrayLargeEnough {α : Type} (canAlloc : Nat → Bool)
    (idx : Nat) (arr : List α) (alloc default_alloc : Nat) (z : α) :
    Except CompileError (List α × Nat) :=
  if idx < alloc then .ok (arr, alloc)
  else
    if canAlloc (growTarget idx alloc default_alloc) then
      .ok (arr ++ List.replicate (growTarget idx alloc default_alloc - alloc) z,
        growTarget idx alloc default_alloc)
    else
      .error (.internal "out of memory")

/-- One row of the compact exception table (spec §4.4: "(start, end, handler
target, expected stack depth, lasti-preserve flag)"); the last three live in
the embedded `ExceptHandlerInfo`. -/
structure ExceptTableEntry where
  e_start : Nat
  e_end : Nat
  e_info : ExceptHandlerInfo
deriving DecidableEq

/-- The active handler metadata of an instruction: present exactly when the
handler label is non-negative (the `-1` sentinel means no handler). -/
def activeHandler (i : Instruction) : Option ExceptHandlerInfo :=
  if 0 ≤ i.i_except_handler_info.h_label then some i.i_except_handler_info
  else none

/-- Modelled from the spec (§4.4): walk the per-instruction handler metadata
at increasing positions, keeping the currently open range `(start, info)` and
closing it into a row whenever the metadata changes or runs out; adjacent
positions with identical metadata extend the open range. -/
def buildRows (pos : Nat) (cur : Option (Nat × ExceptHandlerInfo)) :
    List (Option ExceptHandlerInfo) → List ExceptTableEntry
  | [] =>
    match cur with
    | none => []
    | some (s, info) => [⟨s, pos - 1, info⟩]
  | h :: rest =>
    match h, cur with
    | none, none => buildRows (pos + 1) none rest
    | none, some (s, info) => ⟨s, pos - 1, info⟩ :: buildRows (pos + 1) none rest
    | some hi, none => buildRows (pos + 1) (some (pos, hi)) rest
    | some hi, some (s, info) =>
      if hi = info then buildRows (pos + 1) (some (s, info)) rest
      else ⟨s, pos - 1, info⟩ :: buildRows (pos + 1) (some (pos, hi)) rest

/-- Modelled from the spec (§4.4): derive contiguous instruction ranges
sharing identical active-handler metadata into compact rows, merging
adjacent ranges with identical metadata. -/
def buildExceptTable (instrs : List Instruction) : List ExceptTableEntry :=
  buildRows 0 none (instrs.map activeHandler)

/-- The handler metadata of the spec's §8.d example. -/
def hinfoC8 : ExceptHandlerInfo := ⟨7, 2, 0⟩

/-- The spec's §8.d instruction stream: positions 0-4 without a handler,
positions 5-14 under one identical handler metadata. -/
def instrsC8 : List Instruction :=
  List.replicate 5 (mkInstr LOAD_CONST 0) ++
    List.replicate 10 (mkInstrH LOAD_CONST 0 hinfoC8)

/-- Modelled from the spec (§3, §9): a basic block — stable numeric id, its
ordered instruction list, and the id of the next block in layout order (the
fallthrough target when the block does not end in an unconditional
transfer). -/
structure BasicBlock where
  b_id : Int
  b_instrs : List Instruction
  b_next : Option Int
deriving DecidableEq

/-- Modelled from the spec (§3): a control-flow graph is the ordered
collection of basic blocks; the entry block comes first. -/
structure Cfg where
  blocks : List BasicBlock
deriving DecidableEq

/-- The id of the entry block (the first block). -/
def entryId (g : Cfg) : Int :=
  match g.blocks with
  | [] => 0
  | b :: _ => b.b_id

/-- Unconditional control transfers: execution never falls through them. -/
def isUncondTransfer (op : Int) : Bool :=
  op = JUMP || op = RETURN_VALUE || op = RAISE_VARARGS

/-- A block falls through to its layout successor unless its last
instruction is an unconditional transfer. -/
def fallsThrough (b : BasicBlock) : Bool :=
  match b.b_instrs.getLast? with
  | none => true
  | some i => !(isUncondTransfer i.i_opcode)

/-- The successor ids of a block: the targets of its jump and
exception-setup instructions, plus the layout successor when the block
falls through (spec §4.3: explicit target, fallthrough, exception edge). -/
def blockSuccIds (b : BasicBlock) : List Int :=
  (b.b_instrs.filter (fun i => opcodeHasTarget i.i_opcode)).map
      (fun i => i.i_oparg) ++
    (if fallsThrough b then b.b_next.toList else [])

/-- The block carrying a given id, if any (first match in block order). -/
def findBlock (g : Cfg) (x : Int) : Option BasicBlock :=
  g.blocks.find? (fun b => decide (b.b_id = x))

/-- The successor ids of the block with a given id (empty for a ghost id
that has no block). -/
def succIds (g : Cfg) (x : Int) : List Int :=
  match findBlock g x with
  | some b => blockSuccIds b
  | none => []

/-- All ids a reachability walk can ever touch: the entry id and every
successor id mentioned by any block. -/
def cfgU (g : Cfg) : List Int :=
  entryId g :: g.blocks.flatMap blockSuccIds

/-- One saturation round of the reachability computation: append the
not-yet-seen successors of the current front. -/
def reachExtend (g : Cfg) (s : List Int) : List Int :=
  s ++ ((s.flatMap (succIds g)).filter (fun y => decide (y ∉ s))).dedup

/-- Iterate saturation rounds until a fixpoint or until the fuel runs out. -/
def reachIter (g : Cfg) : Nat → List Int → List Int
  | 0, s => s
  | n + 1, s =>
    if reachExtend g s = s then s else reachIter g n (reachExtend g s)

/-- The ids reachable from the entry block, computed by saturation with
enough fuel to always reach the fixpoint. -/
def reachList (g : Cfg) : List Int :=
  reachIter g ((cfgU g).dedup.length + 1) [entryId g]

/-- Reachability from the entry block along successor edges, as a
relation. -/
def Reach (g : Cfg) (x : Int) : Prop :=
  Relation.ReflTransGen (fun a b => b ∈ succIds g a) (entryId g) x

/-- Modelled from the spec (§4.4): dead/unreachable block elimination —
prune every block unreachable from the entry block. -/
def removeUnreachable (g : Cfg) : Cfg :=
  ⟨g.blocks.filter (fun b => decide (b.b_id ∈ reachList g))⟩

/-- The instruction before the trailing jump must not itself be an
unconditional transfer for the trailing jump to be removable. -/
def penultOk (l : List Instruction) : Bool :=
  match l.dropLast.getLast? with
  | none => true
  | some p => !(isUncondTransfer p.i_opcode)

/-- Modelled from the spec (§4.4 jump simplification): remove a trailing
unconditional jump whose target is the immediately following block; the
block then falls through to the very same target. -/
def dropTrailingJumpToNext (b : BasicBlock) : BasicBlock :=
  match b.b_next with
  | none => b
  | some nxt =>
    match b.b_instrs.getLast? with
    | none => b
    | some last =>
      if last.i_opcode = JUMP ∧ last.i_oparg = nxt ∧ penultOk b.b_instrs = true then
        { b with b_instrs := b.b_instrs.dropLast }
      else b

/-- The inverted form of a conditional jump opcode, if the opcode is a
conditional jump. -/
def condInvert (op : Int) : Option Int :=
  if op = POP_JUMP_IF_TRUE then some POP_JUMP_IF_FALSE
  else if op = POP_JUMP_IF_FALSE then some POP_JUMP_IF_TRUE
  else none

/-- Modelled from the spec (§4.4 jump simplification): invert a conditional
jump when doing so shortens the resulting path — a trailing negation
followed by a conditional jump is absorbed into the inverted conditional
jump, one instruction shorter. -/
def invertNotCond (b : BasicBlock) : Option BasicBlock :=
  match b.b_instrs.getLast? with
  | none => none
  | some last =>
    match condInvert last.i_opcode with
    | none => none
    | some op' =>
      match b.b_instrs.dropLast.getLast? with
      | none => none
      | some penult =>
        if penult.i_opcode = UNARY_NOT then
          some { b with b_instrs :=
            b.b_instrs.dropLast.dropLast ++ [{ last with i_opcode := op' }] }
        else none

/-- Modelled from the spec (§4.4 branch-outcome dead-code elimination):
a conditional branch on a constant produced by upstream constant analysis
(a trailing LOAD_CONST feeding a conditional jump; the constant table is
given to the optimizer and not re-analyzed here) is statically decided —
an always-taken branch becomes an unconditional jump (dropping the
fallthrough edge into the dead arm) and a never-taken branch disappears
(dropping the jump edge into the dead arm); the dead arm's block, having
lost the edge, is then removed by the iterated unreachable-block
elimination. -/
def foldBranch (consts : List Int) (b : BasicBlock) : Option BasicBlock :=
  match b.b_instrs.getLast? with
  | none => none
  | some last =>
    if last.i_opcode = POP_JUMP_IF_TRUE ∨ last.i_opcode = POP_JUMP_IF_FALSE then
      match b.b_instrs.dropLast.getLast? with
      | none => none
      | some penult =>
        if penult.i_opcode = LOAD_CONST ∧ 0 ≤ penult.i_oparg ∧
            penult.i_oparg.toNat < consts.length then
          if (if last.i_opcode = POP_JUMP_IF_TRUE then
                decide (consts.getD penult.i_oparg.toNat 0 ≠ 0)
              else
                decide (consts.getD penult.i_oparg.toNat 0 = 0)) then
            some { b with b_instrs :=
              b.b_instrs.dropLast.dropLast ++ [{ last with i_opcode := JUMP }] }
          else
            some { b with b_instrs := b.b_instrs.dropLast.dropLast }
        else none
    else none

/-- Modelled from the spec (§4.4): one blockwise simplification step,
trying the rewrites in the spec's tie-break order — the rewrite removing
the most instructions first (branch folding removes up to two), then
conditional-jump inversion, then removal of a jump to the immediately
following block. -/
def simplifyBlock (consts : List Int) (b : BasicBlock) : BasicBlock :=
  match foldBranch consts b with
  | some b' => b'
  | none =>
    match invertNotCond b with
    | some b' => b'
    | none => dropTrailingJumpToNext b

/-- The blockwise simplification pass over the whole graph. -/
def simplifyBlocks (consts : List Int) (g : Cfg) : Cfg :=
  ⟨g.blocks.map (simplifyBlock consts)⟩

/-- A trampoline block — a block consisting of exactly one unconditional
jump — recognized together with that jump's target. -/
def trampolineTarget (b : BasicBlock) : Option Int :=
  match b.b_instrs with
  | [i] => if i.i_opcode = JUMP then some i.i_oparg else none
  | _ => none

/-- Does the id name a trampoline block of the graph? -/
def isTrampolineId (g : Cfg) (t : Int) : Bool :=
  match findBlock g t with
  | some b => (trampolineTarget b).isSome
  | none => false

/-- Modelled from the spec (§4.4 jump simplification): collapse a jump
whose target is itself an unconditional jump — when the target block is a
trampoline whose own target is final (not again a trampoline, so chains
collapse over the re-run passes and pure trampoline cycles are left
alone), the jump is retargeted past it. -/
def collapseTarget (g : Cfg) (t : Int) : Int :=
  match findBlock g t with
  | some b =>
    match trampolineTarget b with
    | some u => if isTrampolineId g u then t else u
    | none => t
  | none => t

/-- Retarget one instruction's jump operand through a collapsible
trampoline. -/
def collapseInstr (g : Cfg) (i : Instruction) : Instruction :=
  if _PyCompile_OpcodeHasJump i.i_opcode then
    { i with i_oparg := collapseTarget g i.i_oparg }
  else i

/-- Collapse the jump operands of one block. -/
def collapseBlock (g : Cfg) (b : BasicBlock) : BasicBlock :=
  { b with b_instrs := b.b_instrs.map (collapseInstr g) }

/-- The jump-to-jump collapse pass over the whole graph. -/
def collapseJumps (g : Cfg) : Cfg :=
  ⟨g.blocks.map (collapseBlock g)⟩

/-- One optimizer round in the spec's fixed pass order: dead/unreachable
block elimination, then the instruction-removing block simplifications
(branch folding, conditional inversion, jump-to-next removal), then
jump-to-jump collapse. -/
def optStep (consts : List Int) (g : Cfg) : Cfg :=
  if removeUnreachable g ≠ g then removeUnreachable g
  else if simplifyBlocks consts g ≠ g then simplifyBlocks consts g
  else collapseJumps g

/-- Size measure on a graph: blocks plus instructions.  Dead-block
elimination and block simplification strictly shrink it whenever they
change the graph. -/
def cfgMeasure (g : Cfg) : Nat :=
  (g.blocks.map (fun b => 1 + b.b_instrs.length)).sum

/-- All jump operands of the graph. -/
def jumpTargets (g : Cfg) : List Int :=
  g.blocks.flatMap (fun b =>
    (b.b_instrs.filter (fun i => _PyCompile_OpcodeHasJump i.i_opcode)).map
      (fun i => i.i_oparg))

/-- How many jump operands still target a trampoline block.  Jump-to-jump
collapse keeps `cfgMeasure` but strictly shrinks this count whenever it
changes the graph. -/
def collapseDebt (g : Cfg) : Nat :=
  ((jumpTargets g).filter (fun t => isTrampolineId g t)).length

/-- Combined optimizer termination measure: the size measure dominates and
the collapse debt (always at most the size measure) breaks ties, so every
pass round that changes the graph strictly shrinks it. -/
def optMeasure (g : Cfg) : Nat :=
  cfgMeasure g * (cfgMeasure g + 1) + collapseDebt g

/-- Re-run optimizer rounds until no pass makes further changes (or fuel,
chosen large enough, runs out). -/
def optLoop (consts : List Int) : Nat → Cfg → Cfg
  | 0, g => g
  | n + 1, g =>
    if optStep consts g = g then g else optLoop consts n (optStep consts g)

/-- `_PyCfg_OptimizeCodeUnit` (pycore_flowgraph.h lines 27-28).
Modelled from the spec (§4.4): run the pass sequence to a fixpoint —
dead/unreachable block elimination, jump simplification (jump-to-jump
collapse, removal of jumps to the immediately following block, and
conditional-jump inversion where it shortens the path) and branch-outcome
dead-code elimination re-run until no pass makes further changes.  The
constant table drives the branch-outcome pass (upstream constant analysis,
not redone here); the const-cache, locals and line-number arguments of the
C entry point feed only bookkeeping outside these graph rewrites.  The
fuel bound exceeds the combined measure any pass sequence can consume, so
the result is a true fixpoint. -/
def _PyCfg_OptimizeCodeUnit (g : Cfg) (consts : List Int) : Cfg :=
  optLoop consts (optMeasure g + 1) g

/-- What the optimizer loop preserves on the way from the input graph to
the optimized one: the entry id, nodup block ids, and the presence of
every input block id that is still reachable (so surviving blocks never
hold dangling edges into removed input blocks). -/
def OptPreserved (g h : Cfg) : Prop :=
  entryId h = entryId g ∧
  (h.blocks.map BasicBlock.b_id).Nodup ∧
  (∀ x, x ∈ g.blocks.map BasicBlock.b_id → Reach h x →
    x ∈ h.blocks.map BasicBlock.b_id)

/-- A concrete graph: the entry block jumps straight to block 2, leaving
block 1 unreachable. -/
def gC6 : Cfg :=
  ⟨[⟨0, [mkInstr JUMP 2], some 1⟩,
    ⟨1, [mkInstr LOAD_CONST 0], some 2⟩,
    ⟨2, [mkInstr RETURN_VALUE 0], none⟩]⟩

/-- Modelled from the spec (§4.4): the per-opcode stack effect used by the
forward data-flow pass.  Loads push one value, stores and pops consume one,
binary operations consume two and push one, a raise consumes its operand
count. -/
def stackEffect (op oparg : Int) : Int :=
  if op = LOAD_CONST ∨ op = LOAD_NAME ∨ op = LOAD_FAST ∨ op = LOAD_DEREF then 1
  else if op = STORE_NAME ∨ op = STORE_FAST ∨ op = POP_TOP then -1
  else if op = BINARY_ADD then -1
  else if op = RETURN_VALUE then -1
  else if op = POP_JUMP_IF_FALSE ∨ op = POP_JUMP_IF_TRUE then -1
  else if op = RAISE_VARARGS then -oparg
  else 0

/-- Net stack effect of one block's straight-line instruction run. -/
def blockEffect (b : BasicBlock) : Int :=
  (b.b_instrs.map (fun i => stackEffect i.i_opcode i.i_oparg)).sum

/-- Net stack effect of the block carrying a given id. -/
def blockEffectOf (g : Cfg) (x : Int) : Int :=
  match findBlock g x with
  | some b => blockEffect b
  | none => 0

/-- Entry-depth lookup in the data-flow state (an association list
block id → entry stack depth). -/
def lookupDepth (depths : List (Int × Int)) (x : Int) : Option Int :=
  (depths.find? (fun p => decide (p.1 = x))).map Prod.snd

/-- Propagate one block's exit depth `d` to its successors: a successor
whose entry depth is already recorded must agree — two predecessors
disagreeing on an entry depth is the fatal internal error — and a successor
seen for the first time is recorded and enqueued. -/
def processSuccs (d : Int) : List Int → List (Int × Int) → List Int →
    Except CompileError (List (Int × Int) × List Int)
  | [], depths, queue => .ok (depths, queue)
  | s :: rest, depths, queue =>
    match lookupDepth depths s with
    | some d' =>
      if d' = d then processSuccs d rest depths queue
      else .error (.internal "stack depth mismatch between predecessors")
    | none => processSuccs d rest (depths ++ [(s, d)]) (queue ++ [s])

/-- Modelled from the spec (§4.4): the worklist of the forward data-flow
pass computing each block's entry/exit stack depth; every failure is the
fatal internal variant. -/
def stackdepthLoop (g : Cfg) : Nat → List (Int × Int) → List Int →
    Except CompileError (List (Int × Int))
  | 0, _, _ => .error (.internal "stackdepth worklist failed to settle")
  | _ + 1, depths, [] => .ok depths
  | n + 1, depths, x :: queue =>
    match lookupDepth depths x with
    | none => .error (.internal "worklist id without recorded depth")
    | some d =>
      match processSuccs (d + blockEffectOf g x) (succIds g x) depths queue with
      | .error e => .error e
      | .ok (depths', queue') => stackdepthLoop g n depths' queue'

/-- Modelled from the spec (§4.4): stack-depth validation — forward
data-flow from the entry block at depth 0; fails fatally when predecessors
disagree on a block's entry depth. -/
def computeStackdepth (g : Cfg) : Except CompileError (List (Int × Int)) :=
  stackdepthLoop g ((cfgU g).dedup.length + 2) [(entryId g, 0)] [entryId g]

/-- The maximum recorded entry depth (the spec's "final maximum stack
depth" consumed downstream). -/
def maxDepthOf (depths : List (Int × Int)) : Int :=
  (depths.map Prod.snd).foldl max 0

/-- The optimized graph linearized into one instruction sequence in block
order (spec §4.5). -/
def linearize (g : Cfg) : List Instruction :=
  g.blocks.flatMap BasicBlock.b_instrs

/-- `_PyCfg_OptimizedCfgToInstructionSequence` (pycore_flowgraph.h lines
31-33).  Modelled from the spec (§4.4, §4.5): validate stack depths on the
optimized graph, then linearize it; a stack-depth failure propagates and no
sequence is produced. -/
def _PyCfg_OptimizedCfgToInstructionSequence (g : Cfg) :
    Except CompileError (Int × List Instruction) :=
  match computeStackdepth g with
  | .error e => .error e
  | .ok depths => .ok (maxDepthOf depths, linearize g)

/-- `_PyCompile_CodeUnitMetadata` (pycore_compile.h lines 71-93), with the
index dicts modelled as lists in assigned-index order. -/
structure _PyCompile_CodeUnitMetadata where
  u_name : String
  u_qualname : Option String
  u_consts : List Int
  u_names : List String
  u_varnames : List String
  u_cellvars : List String
  u_freevars : List String
  u_fasthidden : List (String × Bool)
  u_argcount : Int
  u_posonlyargcount : Int
  u_kwonlyargcount : Int
  u_firstlineno : Int
deriving DecidableEq

/-- The final immutable Code Object (spec §3): flat bytecode, constant
pool, name/variable tables in assigned index order, compact exception
table, source-location table (one entry per instruction), maximum stack
depth, combined slot count, flags, filename, first line number. -/
structure CodeObject where
  co_code : List (Int × Nat)
  co_consts : List Int
  co_names : List String
  co_varnames : List String
  co_cellvars : List String
  co_freevars : List String
  co_exceptiontable : List ExceptTableEntry
  co_loctable : List SrcLocation
  co_stacksize : Int
  co_nlocalsplus : Int
  co_flags : Int
  co_filename : String
  co_firstlineno : Int
deriving DecidableEq

/-- Encode one opcode/operand pair into fixed-width units, emitting
extension units carrying the high-order bits first (spec §4.5); the fuel is
always sufficient since the operand shrinks by a factor of 256 each
round. -/
def encodeUnitsAux : Nat → Int → Nat → List (Int × Nat)
  | 0, op, arg => [(op, arg % 256)]
  | fuel + 1, op, arg =>
    if arg < 256 then [(op, arg)]
    else encodeUnitsAux fuel EXTENDED_ARG (arg / 256) ++ [(op, arg % 256)]

/-- Encode one instruction's opcode and operand into bytecode units. -/
def encodeUnits (op : Int) (arg : Nat) : List (Int × Nat) :=
  encodeUnitsAux (arg + 1) op arg

/-- Bytecode units of one instruction. -/
def emitInstr (i : Instruction) : List (Int × Nat) :=
  encodeUnits i.i_opcode i.i_oparg.toNat

/-- Is an instruction's table-indexing operand within range of the table it
indexes (spec §4.5: out-of-range constant/name/variable indices are an
internal inconsistency)? -/
def instrIndexOk (u : _PyCompile_CodeUnitMetadata) (consts : List Int)
    (nlocalsplus : Int) (i : Instruction) : Bool :=
  if _PyCompile_OpcodeHasConst i.i_opcode then
    decide (0 ≤ i.i_oparg ∧ i.i_oparg < consts.length)
  else if _PyCompile_OpcodeHasName i.i_opcode then
    decide (0 ≤ i.i_oparg ∧ i.i_oparg < u.u_names.length)
  else if _PyCompile_OpcodeHasLocal i.i_opcode ||
      _PyCompile_OpcodeHasFree i.i_opcode then
    decide (0 ≤ i.i_oparg ∧ i.i_oparg < nlocalsplus)
  else true

/-- `_PyAssemble_MakeCodeObject` (pycore_flowgraph.h lines 35-38).
Modelled from the spec (§4.5): emit the final Code Object from the
finalized instruction sequence — encode the bytecode, attach the constant
pool and name/variable tables in assigned-index order, build the compact
exception table and per-instruction location table; fail fatally on any
out-of-range table index.  A pure function of its inputs. -/
def _PyAssemble_MakeCodeObject (u : _PyCompile_CodeUnitMetadata)
    (consts : List Int) (maxdepth : Int) (instrs : List Instruction)
    (nlocalsplus code_flags : Int) (filename : String) :
    Except CompileError CodeObject :=
  if instrs.all (instrIndexOk u consts nlocalsplus) then
    .ok { co_code := instrs.flatMap emitInstr,
          co_consts := consts,
          co_names := u.u_names,
          co_varnames := u.u_varnames,
          co_cellvars := u.u_cellvars,
          co_freevars := u.u_freevars,
          co_exceptiontable := buildExceptTable instrs,
          co_loctable := instrs.map Instruction.i_loc,
          co_stacksize := maxdepth,
          co_nlocalsplus := nlocalsplus,
          co_flags := code_flags,
          co_filename := filename,
          co_firstlineno := u.u_firstlineno }
  else
    .error (.internal "operand index out of range")

/-- The whole downstream pipeline from an optimized graph to the final
Code Object: stack-depth validation, linearization, then assembly. -/
def cfgToCodeObject (g : Cfg) (u : _PyCompile_CodeUnitMetadata)
    (consts : List Int) (nlocalsplus code_flags : Int) (filename : String) :
    Except CompileError CodeObject :=
  match _PyCfg_OptimizedCfgToInstructionSequence g with
  | .error e => .error e
  | .ok (maxdepth, instrs) =>
    _PyAssemble_MakeCodeObject u consts maxdepth instrs nlocalsplus
      code_flags filename

/-- Metadata of the spec's §8.a example unit. -/
def uC1 : _PyCompile_CodeUnitMetadata :=
  ⟨"m", none, [1, 2], [], [], [], [], [], 0, 0, 0, 1⟩

/-- The spec's §8.a instruction sequence:
LOAD_CONST 0, LOAD_CONST 1, BINARY_ADD, RETURN_VALUE. -/
def instrsC1 : List Instruction :=
  [mkInstr LOAD_CONST 0, mkInstr LOAD_CONST 1, mkInstr BINARY_ADD 0,
    mkInstr RETURN_VALUE 0]

/-- The Code Object the §8.a example assembles to: four bytecode units,
consts [1,2], maximum stack depth 2, empty exception table. -/
def cC1 : CodeObject :=
  { co_code := [(LOAD_CONST, 0), (LOAD_CONST, 1), (BINARY_ADD, 0),
      (RETURN_VALUE, 0)],
    co_consts := [1, 2],
    co_names := [],
    co_varnames := [],
    co_cellvars := [],
    co_freevars := [],
    co_exceptiontable := [],
    co_loctable := [NO_LOCATION, NO_LOCATION, NO_LOCATION, NO_LOCATION],
    co_stacksize := 2,
    co_nlocalsplus := 0,
    co_flags := 0,
    co_filename := "f.py",
    co_firstlineno := 1 }

/-- A consistent one-block graph: its data-flow state settles at entry
depth 0 for the entry block. -/
def gOK : Cfg :=
  ⟨[⟨0, [mkInstr LOAD_CONST 0, mkInstr RETURN_VALUE 0], none⟩]⟩

/-- An intentionally inconsistent graph: block 1 is entered directly from
the entry block at depth -1, but through block 2 (which pushes a value) at
depth 0 — its two predecessors disagree. -/
def gBad : Cfg :=
  ⟨[⟨0, [mkInstr POP_JUMP_IF_TRUE 1], some 2⟩,
    ⟨2, [mkInstr LOAD_CONST 0], some 1⟩,
    ⟨1, [mkInstr RETURN_VALUE 0], none⟩]⟩

/-! ### Lemmas and the claims' theorems -/

/-- Every error raised while rewriting a single instruction is the
unbound-label internal error. -/
lemma applyLabelMapInstr_error_eq (lm : List Int) (i : Instruction)
    (e : CompileError) (h : applyLabelMapInstr lm i = .error e) :
    e = unboundLabel := by
  unfold applyLabelMapInstr applyHandlerLabel at h
  split at h
  · split at h
    · split at h
      · split at h <;> simp_all
      · simp_all
    · simp_all
  · split at h
    · split at h <;> simp_all
    · simp_all

/-- If some list element fails to rewrite, the whole traversal raises the
unbound-label error. -/
lemma mapApplyInstrs_error_of_mem (lm : List Int)
    (l : List Instruction) (x : Instruction) (hx : x ∈ l)
    (hfx : applyLabelMapInstr lm x = .error unboundLabel) :
    mapApplyInstrs lm l = .error unboundLabel := by
  induction l with
  | nil => cases hx
  | cons a l ih =>
    unfold mapApplyInstrs
    cases hfa : applyLabelMapInstr lm a with
    | error e =>
      have he := applyLabelMapInstr_error_eq lm a e hfa
      subst he
      rfl
    | ok b =>
      rcases List.mem_cons.mp hx with h1 | h2
      · subst h1; rw [hfa] at hfx; cases hfx
      · have hl := ih h2
        rw [hl]

/-- A successful finalization leaves the label map consumed. -/
lemma applyLabelMap_ok_labelmap (seq seq₂ : InstructionSequence)
    (h : _PyCompile_InstructionSequence_ApplyLabelMap seq = .ok seq₂) :
    seq₂.s_labelmap = none := by
  unfold _PyCompile_InstructionSequence_ApplyLabelMap at h
  split at h
  · rename_i hm
    cases h
    exact hm
  · rename_i lm hm
    split at h
    · cases h
    · cases h
      rfl

/-- Claim C2: Finalizing the label map is idempotent — if applying
`_PyCompile_InstructionSequence_ApplyLabelMap` to a sequence (in which every
label referenced by a jump operand has been bound, as witnessed by the
successful first application) yields `seq₂`, then applying it a second time
yields exactly `seq₂` again: the same instruction offsets and operands as
applying it once. -/
theorem applyLabelMap_idempotent (seq seq₂ : InstructionSequence)
    (h : _PyCompile_InstructionSequence_ApplyLabelMap seq = .ok seq₂) :
    _PyCompile_InstructionSequence_ApplyLabelMap seq₂ = .ok seq₂ := by
  have hnone := applyLabelMap_ok_labelmap seq seq₂ h
  unfold _PyCompile_InstructionSequence_ApplyLabelMap
  rw [hnone]

/-- Witness for claim C2 at a concrete sequence. -/
theorem applyLabelMap_idempotent_witness :
    _PyCompile_InstructionSequence_ApplyLabelMap seqC2done = .ok seqC2done :=
  applyLabelMap_idempotent seqC2 seqC2done rfl

/-- Claim C3: applying the label map to a sequence containing a jump operand
that references a label never bound fails with the fatal internal error, and
in particular never returns a finalized sequence (so the operand is never
resolved to offset 0 or to anything else). -/
theorem applyLabelMap_unbound_fails (seq : InstructionSequence)
    (lm : List Int) (i : Instruction)
    (hlm : seq.s_labelmap = some lm)
    (hmem : i ∈ seq.s_instrs)
    (hjump : _PyCompile_OpcodeHasJump i.i_opcode = true)
    (hunbound : resolveLabel lm i.i_oparg = none) :
    _PyCompile_InstructionSequence_ApplyLabelMap seq = .error unboundLabel ∧
    ∀ seq', _PyCompile_InstructionSequence_ApplyLabelMap seq ≠ .ok seq' := by
  have htgt : opcodeHasTarget i.i_opcode = true := by
    unfold opcodeHasTarget
    rw [hjump]
    rfl
  have hfx : applyLabelMapInstr lm i = .error unboundLabel := by
    unfold applyLabelMapInstr
    rw [htgt]
    simp [hunbound]
  have hm := mapApplyInstrs_error_of_mem lm seq.s_instrs i hmem hfx
  have hmain : _PyCompile_InstructionSequence_ApplyLabelMap seq = .error unboundLabel := by
    unfold _PyCompile_InstructionSequence_ApplyLabelMap
    split
    · rename_i hm0
      rw [hlm] at hm0
      cases hm0
    · rename_i lm' hm0
      rw [hlm] at hm0
      cases hm0
      split
      · rename_i e hr
        rw [hm] at hr
        cases hr
        rfl
      · rename_i instrs hr
        rw [hm] at hr
        cases hr
  refine ⟨hmain, ?_⟩
  intro seq' hcon
  rw [hmain] at hcon
  cases hcon

/-- Witness for claim C3 at a concrete sequence with an unbound label. -/
theorem applyLabelMap_unbound_fails_witness :
    _PyCompile_InstructionSequence_ApplyLabelMap seqC3 = .error unboundLabel ∧
    ∀ seq', _PyCompile_InstructionSequence_ApplyLabelMap seqC3 ≠ .ok seq' :=
  applyLabelMap_unbound_fails seqC3 [-1] (mkInstr JUMP 0) rfl
    (by decide) (by decide) rfl

/-- Claim C9: the opcode classification queries are total Boolean functions
(each returns a definite boolean on every integer opcode, by construction),
and they are mutually consistent: whenever any of the six specific operand
queries answers true for an opcode, both `_PyCompile_OpcodeHasArg` and
`_PyCompile_OpcodeIsValid` answer true for it as well. -/
theorem opcode_queries_consistent (op : Int)
    (h : _PyCompile_OpcodeHasConst op = true ∨ _PyCompile_OpcodeHasName op = true ∨
         _PyCompile_OpcodeHasJump op = true ∨ _PyCompile_OpcodeHasFree op = true ∨
         _PyCompile_OpcodeHasLocal op = true ∨ _PyCompile_OpcodeHasExc op = true) :
    _PyCompile_OpcodeHasArg op = true ∧ _PyCompile_OpcodeIsValid op = true := by
  unfold _PyCompile_OpcodeHasConst _PyCompile_OpcodeHasName _PyCompile_OpcodeHasJump
    _PyCompile_OpcodeHasFree _PyCompile_OpcodeHasLocal _PyCompile_OpcodeHasExc at h
  unfold _PyCompile_OpcodeHasArg _PyCompile_OpcodeIsValid
  cases hk : opcodeKind op with
  | none => simp [hk] at h
  | some k =>
    simp [hk] at h ⊢
    rcases h with h | h | h | h | h | h <;> subst h <;> simp

/-- Witness for claim C9 at the concrete opcode `LOAD_CONST`. -/
theorem opcode_queries_consistent_witness :
    _PyCompile_OpcodeHasArg LOAD_CONST = true ∧
    _PyCompile_OpcodeIsValid LOAD_CONST = true :=
  opcode_queries_consistent LOAD_CONST (Or.inl (by decide))

lemma findIdx?_cons {α : Type} [DecidableEq α] (v x : α) (rest : List α) :
    findIdx? v (x :: rest) =
      if x = v then some 0 else (findIdx? v rest).map (· + 1) := rfl

lemma findIdx?_eq_none_iff {α : Type} [DecidableEq α] (v : α) (c : List α) :
    findIdx? v c = none ↔ v ∉ c := by
  induction c with
  | nil => simp [findIdx?]
  | cons x rest ih =>
    rw [findIdx?_cons]
    by_cases hx : x = v
    · subst hx
      simp
    · rw [if_neg hx]
      cases hr : findIdx? v rest with
      | none =>
        rw [hr] at ih
        simp only [Option.map_none', true_iff]
        intro hmem
        rcases List.mem_cons.mp hmem with h1 | h2
        · exact hx h1.symm
        · exact (ih.mp rfl) h2
      | some i =>
        rw [hr] at ih
        simp only [Option.map_some']
        constructor
        · intro hcon
          cases hcon
        · intro hnot
          exfalso
          have hvr : v ∈ rest := by
            by_contra hvr
            cases ih.mpr hvr
          exact hnot (List.mem_cons_of_mem _ hvr)

lemma findIdx?_append_of_some {α : Type} [DecidableEq α] (v : α)
    (c d : List α) (i : Nat) (h : findIdx? v c = some i) :
    findIdx? v (c ++ d) = some i := by
  induction c generalizing i with
  | nil => cases h
  | cons x rest ih =>
    rw [List.cons_append, findIdx?_cons]
    rw [findIdx?_cons] at h
    by_cases hx : x = v
    · rw [if_pos hx] at h ⊢
      exact h
    · rw [if_neg hx] at h ⊢
      cases hr : findIdx? v rest with
      | none => rw [hr] at h; cases h
      | some j =>
        rw [hr] at h
        rw [ih j hr]
        exact h

lemma findIdx?_append_self {α : Type} [DecidableEq α] (v : α) (c : List α)
    (h : findIdx? v c = none) :
    findIdx? v (c ++ [v]) = some c.length := by
  induction c with
  | nil => simp [findIdx?]
  | cons x rest ih =>
    rw [findIdx?_cons] at h
    rw [List.cons_append, findIdx?_cons]
    by_cases hx : x = v
    · rw [if_pos hx] at h
      cases h
    · rw [if_neg hx] at h ⊢
      cases hr : findIdx? v rest with
      | none =>
        rw [ih hr]
        simp [List.length_cons]
      | some j => rw [hr] at h; cases h

/-- Claim C4: constant interning is a value-equality dedup.  Interning any
value twice returns the same table and the same index both times; for two
distinct values first seen in order, the later one receives a distinct,
strictly greater index; and indices are immutable once assigned — after
further interning, the first value still resolves to its original index. -/
theorem constCacheMergeOne_spec {α : Type} [DecidableEq α] (c : List α)
    (v w : α) (hvw : v ≠ w) (hv : v ∉ c) (hw : w ∉ c) :
    (∀ u : α,
      _PyCompile_ConstCacheMergeOne (_PyCompile_ConstCacheMergeOne c u).1 u =
        _PyCompile_ConstCacheMergeOne c u) ∧
    (_PyCompile_ConstCacheMergeOne c v).2 <
      (_PyCompile_ConstCacheMergeOne (_PyCompile_ConstCacheMergeOne c v).1 w).2 ∧
    (_PyCompile_ConstCacheMergeOne (_PyCompile_ConstCacheMergeOne c v).1 w).2 ≠
      (_PyCompile_ConstCacheMergeOne c v).2 ∧
    (_PyCompile_ConstCacheMergeOne
      (_PyCompile_ConstCacheMergeOne (_PyCompile_ConstCacheMergeOne c v).1 w).1 v).2 =
      (_PyCompile_ConstCacheMergeOne c v).2 := by
  have hfv : findIdx? v c = none := (findIdx?_eq_none_iff v c).mpr hv
  have h1 : _PyCompile_ConstCacheMergeOne c v = (c ++ [v], c.length) := by
    unfold _PyCompile_ConstCacheMergeOne
    rw [hfv]
  have hwv : w ∉ c ++ [v] := by
    intro hmem
    rcases List.mem_append.mp hmem with hc | hh
    · exact hw hc
    · rcases List.mem_singleton.mp hh with h
      exact hvw h.symm
  have hfw : findIdx? w (c ++ [v]) = none := (findIdx?_eq_none_iff w _).mpr hwv
  have h2 : _PyCompile_ConstCacheMergeOne (c ++ [v]) w =
      (c ++ [v] ++ [w], (c ++ [v]).length) := by
    unfold _PyCompile_ConstCacheMergeOne
    rw [hfw]
  refine ⟨?_, ?_, ?_, ?_⟩
  · intro u
    unfold _PyCompile_ConstCacheMergeOne
    cases hu : findIdx? u c with
    | some i =>
      simp only [hu]
    | none =>
      simp only [hu]
      rw [findIdx?_append_self u c hu]
  · rw [h1]
    simp only
    rw [h2]
    simp [List.length_append]
  · rw [h1]
    simp only
    rw [h2]
    simp [List.length_append]
  · rw [h1]
    simp only
    rw [h2]
    simp only
    have hv1 : findIdx? v (c ++ [v]) = some c.length := findIdx?_append_self v c hfv
    have hv2 : findIdx? v (c ++ [v] ++ [w]) = some c.length :=
      findIdx?_append_of_some v (c ++ [v]) [w] c.length hv1
    unfold _PyCompile_ConstCacheMergeOne
    rw [hv2]

/-- Witness for claim C4: interning 314 then 271 into the empty table (the
spec's example literals 3.14 and 2.71, scaled to integers for the model). -/
theorem constCacheMergeOne_spec_witness :
    (∀ u : Int,
      _PyCompile_ConstCacheMergeOne (_PyCompile_ConstCacheMergeOne ([] : List Int) u).1 u =
        _PyCompile_ConstCacheMergeOne ([] : List Int) u) ∧
    (_PyCompile_ConstCacheMergeOne ([] : List Int) 314).2 <
      (_PyCompile_ConstCacheMergeOne (_PyCompile_ConstCacheMergeOne ([] : List Int) 314).1 271).2 ∧
    (_PyCompile_ConstCacheMergeOne (_PyCompile_ConstCacheMergeOne ([] : List Int) 314).1 271).2 ≠
      (_PyCompile_ConstCacheMergeOne ([] : List Int) 314).2 ∧
    (_PyCompile_ConstCacheMergeOne
      (_PyCompile_ConstCacheMergeOne (_PyCompile_ConstCacheMergeOne ([] : List Int) 314).1 271).1 314).2 =
      (_PyCompile_ConstCacheMergeOne ([] : List Int) 314).2 :=
  constCacheMergeOne_spec [] 314 271 (by decide) (by decide) (by decide)

/-- Claim C10: the generic capacity-growth routine only grows and preserves
existing contents.  Every successful call returns a capacity strictly
greater than the requested index, a capacity no smaller than the old one,
and a buffer extending the old buffer (all previously stored elements
unchanged, at their old positions); when growth is needed and the allocator
fails, the call returns the distinguishable allocation-error code, never a
success. -/
theorem ensureArrayLargeEnough_spec {α : Type} (canAlloc : Nat → Bool)
    (idx alloc default_alloc : Nat) (arr : List α) (z : α)
    (hd : 0 < default_alloc) :
    (∀ arr' alloc',
      _PyCompile_EnsureArrayLargeEnough canAlloc idx arr alloc default_alloc z =
        .ok (arr', alloc') →
      idx < alloc' ∧ alloc ≤ alloc' ∧ ∃ t, arr' = arr ++ t) ∧
    (alloc ≤ idx → canAlloc (growTarget idx alloc default_alloc) = false →
      _PyCompile_EnsureArrayLargeEnough canAlloc idx arr alloc default_alloc z =
        .error (.internal "out of memory") ∧
      ∀ r, _PyCompile_EnsureArrayLargeEnough canAlloc idx arr alloc default_alloc z ≠
        .ok r) := by
  constructor
  · intro arr' alloc' h
    unfold _PyCompile_EnsureArrayLargeEnough at h
    split at h
    · cases h
      exact ⟨by omega, by omega, [], by simp⟩
    · rename_i hlt
      split at h
      · cases h
        refine ⟨?_, ?_, List.replicate (growTarget idx alloc default_alloc - alloc) z, rfl⟩
        · unfold growTarget
          split <;> split <;> omega
        · unfold growTarget
          split <;> split <;> omega
      · cases h
  · intro hle hca
    have hmain : _PyCompile_EnsureArrayLargeEnough canAlloc idx arr alloc default_alloc z =
        .error (.internal "out of memory") := by
      unfold _PyCompile_EnsureArrayLargeEnough
      rw [if_neg (by omega)]
      simp only [hca]
      rfl
    refine ⟨hmain, ?_⟩
    intro r hcon
    rw [hmain] at hcon
    cases hcon

/-- Witness for claim C10 at concrete inputs: growing a 2-slot buffer to
cover index 5 with default capacity 4 under an unexhausted allocator, and
the failure case under an exhausted allocator. -/
theorem ensureArrayLargeEnough_spec_witness :
    ((∀ arr' alloc',
      _PyCompile_EnsureArrayLargeEnough (fun _ => true) 5 [10, 11] 2 4 (0 : Int) =
        .ok (arr', alloc') →
      5 < alloc' ∧ 2 ≤ alloc' ∧ ∃ t, arr' = [10, 11] ++ t) ∧
    (2 ≤ 5 → (fun _ => true : Nat → Bool) (growTarget 5 2 4) = false →
      _PyCompile_EnsureArrayLargeEnough (fun _ => true) 5 [10, 11] 2 4 (0 : Int) =
        .error (.internal "out of memory") ∧
      ∀ r, _PyCompile_EnsureArrayLargeEnough (fun _ => true) 5 [10, 11] 2 4 (0 : Int) ≠
        .ok r)) :=
  ensureArrayLargeEnough_spec (fun _ => true) 5 2 4 [10, 11] 0 (by decide)

/-- The open range eventually closes into a row that starts at its start
position and ends no earlier than the position before the current one. -/
lemma buildRows_open_row (l : List (Option ExceptHandlerInfo)) (pos s : Nat)
    (info : ExceptHandlerInfo) :
    ∃ e, pos - 1 ≤ e ∧
      ExceptTableEntry.mk s e info ∈ buildRows pos (some (s, info)) l := by
  induction l generalizing pos with
  | nil => exact ⟨pos - 1, le_refl _, by simp [buildRows]⟩
  | cons h rest ih =>
    cases h with
    | none => exact ⟨pos - 1, le_refl _, by simp [buildRows]⟩
    | some hi =>
      by_cases hhi : hi = info
      · subst hhi
        obtain ⟨e, he, hmem⟩ := ih (pos + 1)
        refine ⟨e, by omega, ?_⟩
        simpa [buildRows] using hmem
      · exact ⟨pos - 1, le_refl _, by simp [buildRows, hhi]⟩

/-- Adjacent positions with identical active-handler metadata end up inside
one common row of the table built from any legitimate walking state. -/
lemma buildRows_adjacent (l : List (Option ExceptHandlerInfo))
    (pos : Nat) (cur : Option (Nat × ExceptHandlerInfo))
    (hcur : ∀ s info, cur = some (s, info) → s ≤ pos)
    (i : Nat) (h : ExceptHandlerInfo)
    (h1 : l.get? i = some (some h)) (h2 : l.get? (i + 1) = some (some h)) :
    ∃ s e, s ≤ pos + i ∧ pos + i + 1 ≤ e ∧
      ExceptTableEntry.mk s e h ∈ buildRows pos cur l := by
  induction l generalizing pos cur i with
  | nil => cases h1
  | cons x rest ih =>
    cases i with
    | zero =>
      have hx : x = some h := by
        simpa using h1
      subst hx
      cases rest with
      | nil => cases h2
      | cons y rest' =>
        have hy : y = some h := by
          simpa using h2
        subst hy
        cases cur with
        | none =>
          obtain ⟨e, he, hmem⟩ := buildRows_open_row rest' (pos + 2) pos h
          refine ⟨pos, e, by omega, by omega, ?_⟩
          simpa [buildRows] using hmem
        | some sc =>
          obtain ⟨s, info⟩ := sc
          have hs : s ≤ pos := hcur s info rfl
          by_cases hinfo : h = info
          · subst hinfo
            obtain ⟨e, he, hmem⟩ := buildRows_open_row rest' (pos + 2) s h
            refine ⟨s, e, by omega, by omega, ?_⟩
            simpa [buildRows] using hmem
          · obtain ⟨e, he, hmem⟩ := buildRows_open_row rest' (pos + 2) pos h
            refine ⟨pos, e, by omega, by omega, ?_⟩
            simp only [buildRows, if_neg hinfo]
            exact List.mem_cons_of_mem _ (by simpa [buildRows] using hmem)
    | succ i' =>
      have h1' : rest.get? i' = some (some h) := by
        simpa using h1
      have h2' : rest.get? (i' + 1) = some (some h) := by
        simpa using h2
      cases x with
      | none =>
        cases cur with
        | none =>
          obtain ⟨s, e, hse, hee, hmem⟩ :=
            ih (pos + 1) none (by intro s info hcon; cases hcon) i' h1' h2'
          exact ⟨s, e, by omega, by omega, by simpa [buildRows] using hmem⟩
        | some sc =>
          obtain ⟨s0, info⟩ := sc
          obtain ⟨s, e, hse, hee, hmem⟩ :=
            ih (pos + 1) none (by intro s info hcon; cases hcon) i' h1' h2'
          refine ⟨s, e, by omega, by omega, ?_⟩
          simp only [buildRows]
          exact List.mem_cons_of_mem _ hmem
      | some hi =>
        cases cur with
        | none =>
          obtain ⟨s, e, hse, hee, hmem⟩ :=
            ih (pos + 1) (some (pos, hi))
              (by intro s info hc; cases hc; omega) i' h1' h2'
          exact ⟨s, e, by omega, by omega, by simpa [buildRows] using hmem⟩
        | some sc =>
          obtain ⟨s0, info⟩ := sc
          have hs0 : s0 ≤ pos := hcur s0 info rfl
          by_cases hinfo : hi = info
          · subst hinfo
            obtain ⟨s, e, hse, hee, hmem⟩ :=
              ih (pos + 1) (some (s0, hi))
                (by intro s info hc; cases hc; omega) i' h1' h2'
            exact ⟨s, e, by omega, by omega, by simpa [buildRows] using hmem⟩
          · obtain ⟨s, e, hse, hee, hmem⟩ :=
              ih (pos + 1) (some (pos, hi))
                (by intro s info hc; cases hc; omega) i' h1' h2'
            refine ⟨s, e, by omega, by omega, ?_⟩
            simp only [buildRows, if_neg hinfo]
            exact List.mem_cons_of_mem _ hmem

/-- Claim C8: exception-table compaction merges adjacent ranges with
identical handler metadata — whenever instructions at adjacent positions
`i` and `i + 1` share the same active-handler metadata, the built exception
table contains one row spanning both positions. -/
theorem exceptTable_adjacent_merged (instrs : List Instruction) (i : Nat)
    (a b : Instruction) (h : ExceptHandlerInfo)
    (hi1 : instrs.get? i = some a) (ha : activeHandler a = some h)
    (hi2 : instrs.get? (i + 1) = some b) (hb : activeHandler b = some h) :
    ∃ s e, s ≤ i ∧ i + 1 ≤ e ∧
      ExceptTableEntry.mk s e h ∈ buildExceptTable instrs := by
  have h1 : (instrs.map activeHandler).get? i = some (some h) := by
    rw [List.get?_eq_getElem?, List.getElem?_map, ← List.get?_eq_getElem?, hi1]
    simp [ha]
  have h2 : (instrs.map activeHandler).get? (i + 1) = some (some h) := by
    rw [List.get?_eq_getElem?, List.getElem?_map, ← List.get?_eq_getElem?, hi2]
    simp [hb]
  have := buildRows_adjacent (instrs.map activeHandler) 0 none
    (by intro s info hcon; cases hcon) i h h1 h2
  simpa [buildExceptTable] using this

/-- Witness for claim C8: in the §8.d stream the whole table is the single
row [5,14], and the general theorem applied at the adjacent pair (9,10)
produces a row spanning both. -/
theorem exceptTable_adjacent_merged_witness :
    buildExceptTable instrsC8 = [ExceptTableEntry.mk 5 14 hinfoC8] ∧
    ∃ s e, s ≤ 9 ∧ 10 ≤ e ∧
      ExceptTableEntry.mk s e hinfoC8 ∈ buildExceptTable instrsC8 :=
  ⟨by decide,
   exceptTable_adjacent_merged instrsC8 9
     (mkInstrH LOAD_CONST 0 hinfoC8) (mkInstrH LOAD_CONST 0 hinfoC8) hinfoC8
     (by decide) (by decide) (by decide) (by decide)⟩

/-! Termination of the optimizer loop: every pass strictly shrinks the
measure whenever it changes the graph, so the loop reaches a true
fixpoint. -/
lemma sum_map_le_of_sublist {α : Type} (f : α → Nat) {l₁ l₂ : List α}
    (h : List.Sublist l₁ l₂) : (l₁.map f).sum ≤ (l₂.map f).sum := by
  induction h with
  | slnil => exact le_refl _
  | cons a h ih =>
    simp only [List.map_cons, List.sum_cons]
    omega
  | cons₂ a h ih =>
    simp only [List.map_cons, List.sum_cons]
    omega

lemma sum_map_lt_of_sublist_ne {α : Type} (f : α → Nat) (hf : ∀ x, 0 < f x)
    {l₁ l₂ : List α} (h : List.Sublist l₁ l₂) (hne : l₁ ≠ l₂) :
    (l₁.map f).sum < (l₂.map f).sum := by
  induction h with
  | slnil => exact absurd rfl hne
  | cons a h ih =>
    have hle := sum_map_le_of_sublist f h
    have hfa := hf a
    simp only [List.map_cons, List.sum_cons]
    omega
  | cons₂ a h ih =>
    have := ih (fun e => hne (by rw [e]))
    simp only [List.map_cons, List.sum_cons]
    omega

lemma sum_map_le_pointwise {α : Type} (f₁ f₂ : α → Nat) (l : List α)
    (hle : ∀ x ∈ l, f₁ x ≤ f₂ x) : (l.map f₁).sum ≤ (l.map f₂).sum := by
  induction l with
  | nil => exact le_refl _
  | cons a l ih =>
    have ha := hle a (List.mem_cons_self a l)
    have hl := ih (fun x hx => hle x (List.mem_cons_of_mem a hx))
    simp only [List.map_cons, List.sum_cons]
    omega

lemma sum_map_lt_of_exists {α : Type} (f₁ f₂ : α → Nat) (l : List α)
    (hle : ∀ x ∈ l, f₁ x ≤ f₂ x) (hex : ∃ x ∈ l, f₁ x < f₂ x) :
    (l.map f₁).sum < (l.map f₂).sum := by
  induction l with
  | nil =>
    rcases hex with ⟨x, hx, _⟩
    cases hx
  | cons a l ih =>
    rcases hex with ⟨x, hx, hlt⟩
    have hl := fun x hx => hle x (List.mem_cons_of_mem a hx)
    rcases List.mem_cons.mp hx with h1 | h2
    · subst h1
      have := sum_map_le_pointwise f₁ f₂ l hl
      simp only [List.map_cons, List.sum_cons]
      omega
    · have ha := hle a (List.mem_cons_self a l)
      have := ih hl ⟨x, h2, hlt⟩
      simp only [List.map_cons, List.sum_cons]
      omega

lemma exists_ne_of_map_ne {α : Type} (f : α → α) (l : List α)
    (h : l.map f ≠ l) : ∃ x ∈ l, f x ≠ x := by
  induction l with
  | nil => exact absurd rfl h
  | cons a l ih =>
    by_cases ha : f a = a
    · have hl : l.map f ≠ l := by
        intro e
        exact h (by simp [List.map_cons, ha, e])
      obtain ⟨x, hx, hfx⟩ := ih hl
      exact ⟨x, List.mem_cons_of_mem a hx, hfx⟩
    · exact ⟨a, List.mem_cons_self a l, ha⟩

/-- `dropTrailingJumpToNext` either leaves the block unchanged or removes
exactly the last instruction of a nonempty instruction list. -/
lemma dropTrailingJumpToNext_cases (b : BasicBlock) :
    dropTrailingJumpToNext b = b ∨
    (b.b_instrs ≠ [] ∧
      dropTrailingJumpToNext b = { b with b_instrs := b.b_instrs.dropLast }) := by
  unfold dropTrailingJumpToNext
  split
  · exact Or.inl rfl
  · split
    · exact Or.inl rfl
    · rename_i last hlast
      split
      · refine Or.inr ⟨?_, rfl⟩
        intro e
        rw [e] at hlast
        cases hlast
      · exact Or.inl rfl

lemma dropTrailingJumpToNext_id (b : BasicBlock) :
    (dropTrailingJumpToNext b).b_id = b.b_id := by
  rcases dropTrailingJumpToNext_cases b with h | ⟨_, h⟩ <;> rw [h]

lemma dropTrailingJumpToNext_next (b : BasicBlock) :
    (dropTrailingJumpToNext b).b_next = b.b_next := by
  rcases dropTrailingJumpToNext_cases b with h | ⟨_, h⟩ <;> rw [h]

lemma dropTrailingJumpToNext_len_le (b : BasicBlock) :
    (dropTrailingJumpToNext b).b_instrs.length ≤ b.b_instrs.length := by
  rcases dropTrailingJumpToNext_cases b with h | ⟨_, h⟩ <;> rw [h]
  simp only [List.length_dropLast]
  omega

lemma dropTrailingJumpToNext_len_lt (b : BasicBlock)
    (h : dropTrailingJumpToNext b ≠ b) :
    (dropTrailingJumpToNext b).b_instrs.length < b.b_instrs.length := by
  rcases dropTrailingJumpToNext_cases b with he | ⟨hne, he⟩
  · exact absurd he h
  · rw [he]
    have hpos : 0 < b.b_instrs.length := List.length_pos.mpr hne
    simp only [List.length_dropLast]
    omega

lemma removeUnreachable_measure_lt (g : Cfg) (h : removeUnreachable g ≠ g) :
    cfgMeasure (removeUnreachable g) < cfgMeasure g := by
  have hsub : List.Sublist
      (g.blocks.filter (fun b => decide (b.b_id ∈ reachList g))) g.blocks :=
    List.filter_sublist _
  have hne : g.blocks.filter (fun b => decide (b.b_id ∈ reachList g)) ≠ g.blocks := by
    intro e
    exact h (by unfold removeUnreachable; rw [e])
  exact sum_map_lt_of_sublist_ne _ (fun b => by omega) hsub hne

/-! Structure of the block-simplification rewrites. -/

/-- A successful branch fold removes the constant load and replaces the
conditional jump by an unconditional one (always-taken) or removes both
instructions (never-taken). -/
lemma foldBranch_some (consts : List Int) (b b' : BasicBlock)
    (h : foldBranch consts b = some b') :
    ∃ last, b.b_instrs.getLast? = some last ∧
      (last.i_opcode = POP_JUMP_IF_TRUE ∨ last.i_opcode = POP_JUMP_IF_FALSE) ∧
      b.b_instrs.dropLast ≠ [] ∧
      (b' = { b with b_instrs :=
          b.b_instrs.dropLast.dropLast ++ [{ last with i_opcode := JUMP }] } ∨
       b' = { b with b_instrs := b.b_instrs.dropLast.dropLast }) := by
  unfold foldBranch at h
  split at h
  · cases h
  · rename_i last hlast
    split at h
    · rename_i hops
      split at h
      · cases h
      · rename_i penult hpen
        have hdne : b.b_instrs.dropLast ≠ [] := by
          intro e
          rw [e] at hpen
          cases hpen
        split at h
        · split at h <;> split at h <;> cases h <;>
            first
            | exact ⟨last, hlast, hops, hdne, Or.inl rfl⟩
            | exact ⟨last, hlast, hops, hdne, Or.inr rfl⟩
        · cases h
    · cases h

/-- A successful inversion absorbs the trailing negation into the inverted
conditional jump. -/
lemma invertNotCond_some (b b' : BasicBlock) (h : invertNotCond b = some b') :
    ∃ last op', b.b_instrs.getLast? = some last ∧
      condInvert last.i_opcode = some op' ∧
      b.b_instrs.dropLast ≠ [] ∧
      b' = { b with b_instrs :=
        b.b_instrs.dropLast.dropLast ++ [{ last with i_opcode := op' }] } := by
  unfold invertNotCond at h
  split at h
  · cases h
  · rename_i last hlast
    split at h
    · cases h
    · rename_i op' hop
      split at h
      · cases h
      · rename_i penult hpen
        split at h
        · cases h
          refine ⟨last, op', hlast, hop, ?_, rfl⟩
          intro e
          rw [e] at hpen
          cases hpen
        · cases h

lemma getLast?_isSome_ne_nil {l : List Instruction} {x : Instruction}
    (h : l.getLast? = some x) : l ≠ [] := by
  intro e
  rw [e] at h
  cases h

lemma foldBranch_len_lt (consts : List Int) (b b' : BasicBlock)
    (h : foldBranch consts b = some b') :
    b'.b_instrs.length < b.b_instrs.length := by
  obtain ⟨last, hlast, _, hdne, hor⟩ := foldBranch_some consts b b' h
  have h1 : 0 < b.b_instrs.length :=
    List.length_pos.mpr (getLast?_isSome_ne_nil hlast)
  have h2 : 0 < b.b_instrs.dropLast.length := List.length_pos.mpr hdne
  have e1 : b.b_instrs.dropLast.length = b.b_instrs.length - 1 :=
    List.length_dropLast _
  rcases hor with he | he <;> rw [he] <;>
    simp only [List.length_append, List.length_dropLast, List.length_cons,
      List.length_nil] <;>
    omega

lemma foldBranch_id_next (consts : List Int) (b b' : BasicBlock)
    (h : foldBranch consts b = some b') :
    b'.b_id = b.b_id ∧ b'.b_next = b.b_next := by
  obtain ⟨last, _, _, _, hor⟩ := foldBranch_some consts b b' h
  rcases hor with he | he <;> rw [he] <;> exact ⟨rfl, rfl⟩

lemma invertNotCond_len_lt (b b' : BasicBlock) (h : invertNotCond b = some b') :
    b'.b_instrs.length < b.b_instrs.length := by
  obtain ⟨last, op', hlast, _, hdne, he⟩ := invertNotCond_some b b' h
  have h1 : 0 < b.b_instrs.length :=
    List.length_pos.mpr (getLast?_isSome_ne_nil hlast)
  have h2 : 0 < b.b_instrs.dropLast.length := List.length_pos.mpr hdne
  have e1 : b.b_instrs.dropLast.length = b.b_instrs.length - 1 :=
    List.length_dropLast _
  rw [he]
  simp only [List.length_append, List.length_dropLast, List.length_cons,
    List.length_nil]
  omega

lemma invertNotCond_id_next (b b' : BasicBlock) (h : invertNotCond b = some b') :
    b'.b_id = b.b_id ∧ b'.b_next = b.b_next := by
  obtain ⟨last, op', _, _, _, he⟩ := invertNotCond_some b b' h
  rw [he]
  exact ⟨rfl, rfl⟩

lemma simplifyBlock_id (consts : List Int) (b : BasicBlock) :
    (simplifyBlock consts b).b_id = b.b_id := by
  unfold simplifyBlock
  cases hf : foldBranch consts b with
  | some b' => exact (foldBranch_id_next consts b b' hf).1
  | none =>
    cases hinv : invertNotCond b with
    | some b' => exact (invertNotCond_id_next b b' hinv).1
    | none => exact dropTrailingJumpToNext_id b

lemma simplifyBlock_next (consts : List Int) (b : BasicBlock) :
    (simplifyBlock consts b).b_next = b.b_next := by
  unfold simplifyBlock
  cases hf : foldBranch consts b with
  | some b' => exact (foldBranch_id_next consts b b' hf).2
  | none =>
    cases hinv : invertNotCond b with
    | some b' => exact (invertNotCond_id_next b b' hinv).2
    | none => exact dropTrailingJumpToNext_next b

lemma simplifyBlock_len_le (consts : List Int) (b : BasicBlock) :
    (simplifyBlock consts b).b_instrs.length ≤ b.b_instrs.length := by
  unfold simplifyBlock
  cases hf : foldBranch consts b with
  | some b' => exact le_of_lt (foldBranch_len_lt consts b b' hf)
  | none =>
    cases hinv : invertNotCond b with
    | some b' => exact le_of_lt (invertNotCond_len_lt b b' hinv)
    | none => exact dropTrailingJumpToNext_len_le b

lemma simplifyBlock_len_lt (consts : List Int) (b : BasicBlock)
    (h : simplifyBlock consts b ≠ b) :
    (simplifyBlock consts b).b_instrs.length < b.b_instrs.length := by
  unfold simplifyBlock at h ⊢
  cases hf : foldBranch consts b with
  | some b' => exact foldBranch_len_lt consts b b' hf
  | none =>
    cases hinv : invertNotCond b with
    | some b' => exact invertNotCond_len_lt b b' hinv
    | none =>
      rw [hf, hinv] at h
      exact dropTrailingJumpToNext_len_lt b h

lemma simplifyBlocks_measure_lt (consts : List Int) (g : Cfg)
    (h : simplifyBlocks consts g ≠ g) :
    cfgMeasure (simplifyBlocks consts g) < cfgMeasure g := by
  have hne : g.blocks.map (simplifyBlock consts) ≠ g.blocks := by
    intro e
    exact h (by unfold simplifyBlocks; rw [e])
  obtain ⟨b, hb, hbne⟩ := exists_ne_of_map_ne _ _ hne
  unfold cfgMeasure simplifyBlocks
  simp only [List.map_map]
  apply sum_map_lt_of_exists
  · intro x _
    have := simplifyBlock_len_le consts x
    simp only [Function.comp_apply]
    omega
  · refine ⟨b, hb, ?_⟩
    have := simplifyBlock_len_lt consts b hbne
    simp only [Function.comp_apply]
    omega

/-! Structure of the jump-to-jump collapse pass. -/

lemma collapseInstr_opcode (g : Cfg) (i : Instruction) :
    (collapseInstr g i).i_opcode = i.i_opcode := by
  unfold collapseInstr
  split
  · rfl
  · rfl

lemma collapseInstr_ne (g : Cfg) (i : Instruction) (h : collapseInstr g i ≠ i) :
    _PyCompile_OpcodeHasJump i.i_opcode = true ∧
    collapseTarget g i.i_oparg ≠ i.i_oparg := by
  unfold collapseInstr at h
  by_cases hj : _PyCompile_OpcodeHasJump i.i_opcode = true
  · rw [if_pos hj] at h
    refine ⟨hj, ?_⟩
    intro e
    exact h (by rw [e])
  · rw [if_neg hj] at h
    exact absurd rfl h

lemma collapseBlock_id (g : Cfg) (b : BasicBlock) :
    (collapseBlock g b).b_id = b.b_id := rfl

lemma collapseBlock_ne_instrs (g : Cfg) (b : BasicBlock)
    (h : collapseBlock g b ≠ b) :
    b.b_instrs.map (collapseInstr g) ≠ b.b_instrs := by
  intro e
  exact h (by unfold collapseBlock; rw [e])

lemma cfgMeasure_collapseJumps (g : Cfg) :
    cfgMeasure (collapseJumps g) = cfgMeasure g := by
  unfold cfgMeasure collapseJumps
  rw [List.map_map]
  apply congrArg List.sum
  apply List.map_congr_left
  intro b _
  simp [Function.comp, collapseBlock]

lemma find?_map_id (f : BasicBlock → BasicBlock)
    (hid : ∀ b, (f b).b_id = b.b_id) (l : List BasicBlock) (x : Int) :
    (l.map f).find? (fun b => decide (b.b_id = x)) =
      (l.find? (fun b => decide (b.b_id = x))).map f := by
  induction l with
  | nil => rfl
  | cons a l ih =>
    by_cases ha : a.b_id = x
    · rw [List.map_cons,
        List.find?_cons_of_pos _ (by rw [hid]; simpa),
        List.find?_cons_of_pos _ (by simpa)]
      rfl
    · rw [List.map_cons,
        List.find?_cons_of_neg _ (by rw [hid]; simpa),
        List.find?_cons_of_neg _ (by simpa)]
      exact ih

lemma findBlock_collapseJumps (g : Cfg) (x : Int) :
    findBlock (collapseJumps g) x = (findBlock g x).map (collapseBlock g) := by
  unfold findBlock collapseJumps
  exact find?_map_id _ (collapseBlock_id g) g.blocks x

lemma trampolineTarget_collapseBlock (g : Cfg) (b : BasicBlock) :
    trampolineTarget (collapseBlock g b) =
      (trampolineTarget b).map (collapseTarget g) := by
  unfold trampolineTarget collapseBlock
  cases hb : b.b_instrs with
  | nil => rfl
  | cons i rest =>
    cases rest with
    | nil =>
      show (if (collapseInstr g i).i_opcode = JUMP
          then some (collapseInstr g i).i_oparg else none) =
        (if i.i_opcode = JUMP then some i.i_oparg else none).map (collapseTarget g)
      rw [collapseInstr_opcode]
      by_cases hop : i.i_opcode = JUMP
      · rw [if_pos hop, if_pos hop]
        simp only [Option.map_some']
        unfold collapseInstr
        have hj : _PyCompile_OpcodeHasJump i.i_opcode = true := by
          rw [hop]
          rfl
        rw [if_pos hj]
      · rw [if_neg hop, if_neg hop]
        rfl
    | cons j rest' => rfl

lemma isTrampolineId_collapseJumps (g : Cfg) (t : Int) :
    isTrampolineId (collapseJumps g) t = isTrampolineId g t := by
  unfold isTrampolineId
  rw [findBlock_collapseJumps]
  cases findBlock g t with
  | none => rfl
  | some b =>
    simp only [Option.map_some']
    rw [trampolineTarget_collapseBlock]
    cases trampolineTarget b <;> rfl

lemma map_flatMap_comm {α β γ : Type} (l : List α) (h : α → List β)
    (F : β → γ) :
    (l.flatMap h).map F = l.flatMap (fun a => (h a).map F) := by
  induction l with
  | nil => rfl
  | cons a l ih => simp [List.flatMap_cons, List.map_append, ih]

lemma flatMap_map_comm {α β γ : Type} (l : List α) (f : α → β)
    (h : β → List γ) :
    (l.map f).flatMap h = l.flatMap (fun a => h (f a)) := by
  induction l with
  | nil => rfl
  | cons a l ih => simp [List.flatMap_cons, ih]

lemma jumpOpargs_map_collapse (g : Cfg) (l : List Instruction) :
    ((l.map (collapseInstr g)).filter
        (fun i => _PyCompile_OpcodeHasJump i.i_opcode)).map
      (fun i => i.i_oparg) =
    ((l.filter (fun i => _PyCompile_OpcodeHasJump i.i_opcode)).map
      (fun i => i.i_oparg)).map (collapseTarget g) := by
  induction l with
  | nil => rfl
  | cons i rest ih =>
    rw [List.map_cons, List.filter_cons, List.filter_cons]
    by_cases hj : _PyCompile_OpcodeHasJump i.i_opcode = true
    · rw [if_pos (show _ = true by simpa [collapseInstr_opcode] using hj),
        if_pos hj]
      rw [List.map_cons, List.map_cons, List.map_cons, ih]
      have hop : (collapseInstr g i).i_oparg = collapseTarget g i.i_oparg := by
        unfold collapseInstr
        rw [if_pos hj]
      rw [hop]
    · rw [if_neg (show ¬_ = true by simpa [collapseInstr_opcode] using hj),
        if_neg hj]
      exact ih

lemma jumpTargets_collapseJumps (g : Cfg) :
    jumpTargets (collapseJumps g) = (jumpTargets g).map (collapseTarget g) := by
  have hfun : ∀ l : List BasicBlock,
      (l.map (collapseBlock g)).flatMap (fun b =>
        (b.b_instrs.filter (fun i => _PyCompile_OpcodeHasJump i.i_opcode)).map
          (fun i => i.i_oparg)) =
      (l.flatMap (fun b =>
        (b.b_instrs.filter (fun i => _PyCompile_OpcodeHasJump i.i_opcode)).map
          (fun i => i.i_oparg))).map (collapseTarget g) := by
    intro l
    rw [flatMap_map_comm, map_flatMap_comm]
    exact congrArg l.flatMap
      (funext (fun b => jumpOpargs_map_collapse g b.b_instrs))
  have hcj : jumpTargets (collapseJumps g) =
      (g.blocks.map (collapseBlock g)).flatMap (fun b =>
        (b.b_instrs.filter (fun i => _PyCompile_OpcodeHasJump i.i_opcode)).map
          (fun i => i.i_oparg)) := rfl
  rw [hcj, hfun g.blocks]
  rfl

lemma collapseTarget_cases (g : Cfg) (t : Int) :
    collapseTarget g t = t ∨
    (∃ tb, findBlock g t = some tb ∧
      trampolineTarget tb = some (collapseTarget g t) ∧
      isTrampolineId g (collapseTarget g t) = false) := by
  cases hfb : findBlock g t with
  | none =>
    left
    simp [collapseTarget, hfb]
  | some b =>
    cases htt : trampolineTarget b with
    | none =>
      left
      simp [collapseTarget, hfb, htt]
    | some u =>
      by_cases hu : isTrampolineId g u = true
      · left
        simp [collapseTarget, hfb, htt, hu]
      · have hval : collapseTarget g t = u := by
          simp [collapseTarget, hfb, htt, hu]
        rw [hval]
        exact Or.inr ⟨b, rfl, htt, by simpa using hu⟩

lemma isTrampolineId_of_target {g : Cfg} {t : Int} {tb : BasicBlock} {u : Int}
    (hfb : findBlock g t = some tb) (htt : trampolineTarget tb = some u) :
    isTrampolineId g t = true := by
  simp [isTrampolineId, hfb, htt]

lemma filter_length_le {α : Type} (p q : α → Bool) (l : List α)
    (himp : ∀ x ∈ l, q x = true → p x = true) :
    (l.filter q).length ≤ (l.filter p).length := by
  induction l with
  | nil => exact le_refl _
  | cons a l ih =>
    have himp' := fun y hy => himp y (List.mem_cons_of_mem a hy)
    by_cases hqa : q a = true
    · rw [List.filter_cons_of_pos hqa,
        List.filter_cons_of_pos (himp a (List.mem_cons_self a l) hqa)]
      simpa using ih himp'
    · rw [List.filter_cons_of_neg (by simpa using hqa)]
      by_cases hpa : p a = true
      · rw [List.filter_cons_of_pos hpa]
        exact le_trans (ih himp') (by simp)
      · rw [List.filter_cons_of_neg (by simpa using hpa)]
        exact ih himp'

lemma filter_length_lt {α : Type} (p q : α → Bool) (l : List α)
    (himp : ∀ x ∈ l, q x = true → p x = true) (x : α) (hx : x ∈ l)
    (hpx : p x = true) (hqx : q x = false) :
    (l.filter q).length < (l.filter p).length := by
  induction l with
  | nil => cases hx
  | cons a l ih =>
    have himp' := fun y hy => himp y (List.mem_cons_of_mem a hy)
    rcases List.mem_cons.mp hx with h1 | h2
    · subst h1
      rw [List.filter_cons_of_pos hpx,
        List.filter_cons_of_neg (by simp [hqx])]
      have := filter_length_le p q l himp'
      simp only [List.length_cons]
      omega
    · by_cases hqa : q a = true
      · rw [List.filter_cons_of_pos hqa,
          List.filter_cons_of_pos (himp a (List.mem_cons_self a l) hqa)]
        simpa using ih himp' h2
      · rw [List.filter_cons_of_neg (by simpa using hqa)]
        by_cases hpa : p a = true
        · rw [List.filter_cons_of_pos hpa]
          have := ih himp' h2
          simp only [List.length_cons]
          omega
        · rw [List.filter_cons_of_neg (by simpa using hpa)]
          exact ih himp' h2

lemma collapseDebt_lt (g : Cfg) (h : collapseJumps g ≠ g) :
    collapseDebt (collapseJumps g) < collapseDebt g := by
  have hblocks : g.blocks.map (collapseBlock g) ≠ g.blocks := by
    intro e
    exact h (by unfold collapseJumps; rw [e])
  obtain ⟨b, hb, hbne⟩ := exists_ne_of_map_ne _ _ hblocks
  obtain ⟨i, hi, hine⟩ := exists_ne_of_map_ne _ _ (collapseBlock_ne_instrs g b hbne)
  obtain ⟨hj, hct⟩ := collapseInstr_ne g i hine
  rcases collapseTarget_cases g i.i_oparg with he | ⟨tb, hfb, htt, hnt⟩
  · exact absurd he hct
  have hmt : isTrampolineId g i.i_oparg = true := isTrampolineId_of_target hfb htt
  have htmem : i.i_oparg ∈ jumpTargets g := by
    unfold jumpTargets
    apply List.mem_flatMap.mpr
    exact ⟨b, hb, List.mem_map.mpr ⟨i, List.mem_filter.mpr ⟨hi, hj⟩, rfl⟩⟩
  have himp : ∀ t ∈ jumpTargets g,
      isTrampolineId g (collapseTarget g t) = true → isTrampolineId g t = true := by
    intro t _ hq
    rcases collapseTarget_cases g t with he | ⟨tb', hfb', htt', _⟩
    · rw [← he]
      exact hq
    · exact isTrampolineId_of_target hfb' htt'
  unfold collapseDebt
  rw [jumpTargets_collapseJumps]
  have hcong : ((jumpTargets g).map (collapseTarget g)).filter
        (fun t => isTrampolineId (collapseJumps g) t) =
      ((jumpTargets g).map (collapseTarget g)).filter
        (fun t => isTrampolineId g t) :=
    List.filter_congr (fun t _ => by rw [isTrampolineId_collapseJumps])
  rw [hcong, List.filter_map, List.length_map]
  exact filter_length_lt _ _ _ himp i.i_oparg htmem hmt (by simp [Function.comp, hnt])

lemma length_flatMap_eq {α β : Type} (l : List α) (f : α → List β) :
    (l.flatMap f).length = (l.map (fun a => (f a).length)).sum := by
  induction l with
  | nil => rfl
  | cons a l ih => simp [List.flatMap_cons, List.length_append, ih]

lemma collapseDebt_le_cfgMeasure (g : Cfg) : collapseDebt g ≤ cfgMeasure g := by
  unfold collapseDebt cfgMeasure
  have h1 : ((jumpTargets g).filter (fun t => isTrampolineId g t)).length ≤
      (jumpTargets g).length := List.length_filter_le _ _
  have h2 : (jumpTargets g).length ≤
      (g.blocks.map (fun b => 1 + b.b_instrs.length)).sum := by
    unfold jumpTargets
    rw [length_flatMap_eq]
    apply sum_map_le_pointwise
    intro b _
    have := List.length_filter_le
      (fun i => _PyCompile_OpcodeHasJump i.i_opcode) b.b_instrs
    simp only [List.length_map]
    omega
  omega

/-! Optimizer termination: every pass round that changes the graph strictly
shrinks the combined measure, so the loop reaches a true fixpoint. -/

lemma optMeasure_lt_of_cfgMeasure_lt (h g : Cfg)
    (hlt : cfgMeasure h < cfgMeasure g) : optMeasure h < optMeasure g := by
  have hd := collapseDebt_le_cfgMeasure h
  unfold optMeasure
  have key : (cfgMeasure h + 1) * (cfgMeasure h + 2) =
      cfgMeasure h * (cfgMeasure h + 1) + cfgMeasure h + (cfgMeasure h + 2) := by
    ring
  have h2 : (cfgMeasure h + 1) * (cfgMeasure h + 2) ≤
      cfgMeasure g * (cfgMeasure g + 1) :=
    Nat.mul_le_mul (by omega) (by omega)
  omega

lemma optMeasure_lt_of_debt (h g : Cfg) (hm : cfgMeasure h = cfgMeasure g)
    (hd : collapseDebt h < collapseDebt g) : optMeasure h < optMeasure g := by
  unfold optMeasure
  rw [hm]
  omega

lemma optStep_optMeasure_lt (consts : List Int) (g : Cfg)
    (h : optStep consts g ≠ g) :
    optMeasure (optStep consts g) < optMeasure g := by
  unfold optStep at *
  by_cases hru : removeUnreachable g = g
  · rw [if_neg (by simpa using hru)] at h ⊢
    by_cases hsim : simplifyBlocks consts g = g
    · rw [if_neg (by simpa using hsim)] at h ⊢
      exact optMeasure_lt_of_debt _ _ (cfgMeasure_collapseJumps g)
        (collapseDebt_lt g h)
    · rw [if_pos hsim] at h ⊢
      exact optMeasure_lt_of_cfgMeasure_lt _ _ (simplifyBlocks_measure_lt consts g hsim)
  · rw [if_pos hru] at h ⊢
    exact optMeasure_lt_of_cfgMeasure_lt _ _ (removeUnreachable_measure_lt g hru)

lemma optLoop_of_fixed (consts : List Int) (n : Nat) (g : Cfg)
    (h : optStep consts g = g) : optLoop consts n g = g := by
  cases n with
  | zero => rfl
  | succ n =>
    unfold optLoop
    rw [if_pos h]

lemma optStep_optLoop (consts : List Int) (n : Nat) : ∀ g : Cfg,
    optMeasure g < n →
    optStep consts (optLoop consts n g) = optLoop consts n g := by
  induction n with
  | zero =>
    intro g h
    exact absurd h (by omega)
  | succ n ih =>
    intro g h
    by_cases hfix : optStep consts g = g
    · rw [optLoop, if_pos hfix]
      exact hfix
    · rw [optLoop, if_neg hfix]
      apply ih
      have := optStep_optMeasure_lt consts g hfix
      omega

/-- The optimizer's result is a fixpoint of the pass round. -/
lemma optimize_is_fixed (g : Cfg) (consts : List Int) :
    optStep consts (_PyCfg_OptimizeCodeUnit g consts) =
      _PyCfg_OptimizeCodeUnit g consts :=
  optStep_optLoop consts (optMeasure g + 1) g (by omega)

/-- Claim C5: the CFG optimizer reaches a fixpoint — running
`_PyCfg_OptimizeCodeUnit` (dead-block elimination, branch-outcome folding,
conditional-jump inversion, jump-to-next removal and jump-to-jump collapse,
re-run until no pass makes changes) on its own output is a no-op: the
second run returns the identical graph, hence an identical block set and
identical successor edges for every block id. -/
theorem optimizeCodeUnit_fixpoint (g : Cfg) (consts : List Int) :
    _PyCfg_OptimizeCodeUnit (_PyCfg_OptimizeCodeUnit g consts) consts =
      _PyCfg_OptimizeCodeUnit g consts ∧
    (_PyCfg_OptimizeCodeUnit (_PyCfg_OptimizeCodeUnit g consts) consts).blocks =
      (_PyCfg_OptimizeCodeUnit g consts).blocks ∧
    ∀ x, succIds (_PyCfg_OptimizeCodeUnit (_PyCfg_OptimizeCodeUnit g consts) consts) x =
      succIds (_PyCfg_OptimizeCodeUnit g consts) x := by
  have hmain : _PyCfg_OptimizeCodeUnit (_PyCfg_OptimizeCodeUnit g consts) consts =
      _PyCfg_OptimizeCodeUnit g consts := by
    unfold _PyCfg_OptimizeCodeUnit
    exact optLoop_of_fixed consts _ _ (optimize_is_fixed g consts)
  exact ⟨hmain, by rw [hmain], fun x => by rw [hmain]⟩

/-! Correctness of the reachability saturation: `reachList` contains exactly
the ids reachable from the entry block. -/
lemma succIds_subset_U (g : Cfg) (a : Int) : succIds g a ⊆ cfgU g := by
  intro x hx
  unfold succIds at hx
  cases hb : findBlock g a with
  | none =>
    rw [hb] at hx
    cases hx
  | some b =>
    rw [hb] at hx
    unfold findBlock at hb
    have hbm : b ∈ g.blocks := List.mem_of_find?_eq_some hb
    unfold cfgU
    exact List.mem_cons_of_mem _ (List.mem_flatMap.mpr ⟨b, hbm, hx⟩)

lemma reachExtend_subset_self (g : Cfg) (s : List Int) : s ⊆ reachExtend g s :=
  fun _ hx => List.mem_append.mpr (Or.inl hx)

lemma mem_reachExtend_cases (g : Cfg) (s : List Int) (x : Int)
    (hx : x ∈ reachExtend g s) :
    x ∈ s ∨ (x ∉ s ∧ ∃ a ∈ s, x ∈ succIds g a) := by
  unfold reachExtend at hx
  rcases List.mem_append.mp hx with h | h
  · exact Or.inl h
  · right
    have h' := List.mem_dedup.mp h
    have hdec := List.of_mem_filter h'
    have hmem := List.mem_of_mem_filter h'
    obtain ⟨a, ha, hxa⟩ := List.mem_flatMap.mp hmem
    exact ⟨by simpa using hdec, a, ha, hxa⟩

lemma reachExtend_nodup (g : Cfg) (s : List Int) (h : s.Nodup) :
    (reachExtend g s).Nodup := by
  unfold reachExtend
  apply List.Nodup.append h (List.nodup_dedup _)
  intro x hx hx'
  have hdec := List.of_mem_filter (List.mem_dedup.mp hx')
  simp only [decide_eq_true_eq] at hdec
  exact hdec hx

lemma reachExtend_subset_U (g : Cfg) (s : List Int) (h : s ⊆ cfgU g) :
    reachExtend g s ⊆ cfgU g := by
  intro x hx
  rcases mem_reachExtend_cases g s x hx with h1 | ⟨_, a, _, hxa⟩
  · exact h h1
  · exact succIds_subset_U g a hxa

lemma reachExtend_length_lt (g : Cfg) (s : List Int)
    (h : reachExtend g s ≠ s) : s.length < (reachExtend g s).length := by
  unfold reachExtend at *
  by_cases ht : ((s.flatMap (succIds g)).filter (fun y => decide (y ∉ s))).dedup = []
  · rw [ht] at h
    simp at h
  · rw [List.length_append]
    have := List.length_pos.mpr ht
    omega

lemma nodup_subset_length_le {l t : List Int} (hnd : l.Nodup) (hsub : l ⊆ t) :
    l.length ≤ t.dedup.length := by
  have hsub' : l ⊆ t.dedup := fun x hx => List.mem_dedup.mpr (hsub hx)
  exact (List.subperm_of_subset hnd hsub').length_le

lemma reachIter_fixed (g : Cfg) (n : Nat) : ∀ s, s.Nodup → s ⊆ cfgU g →
    (cfgU g).dedup.length < n + s.length →
    reachExtend g (reachIter g n s) = reachIter g n s := by
  induction n with
  | zero =>
    intro s hnd hsub hlt
    have := nodup_subset_length_le hnd hsub
    omega
  | succ n ih =>
    intro s hnd hsub hlt
    rw [reachIter]
    by_cases hfix : reachExtend g s = s
    · rw [if_pos hfix]
      exact hfix
    · rw [if_neg hfix]
      apply ih _ (reachExtend_nodup g s hnd) (reachExtend_subset_U g s hsub)
      have := reachExtend_length_lt g s hfix
      omega

lemma subset_reachIter (g : Cfg) (n : Nat) : ∀ s, s ⊆ reachIter g n s := by
  induction n with
  | zero => intro s; exact fun _ hx => hx
  | succ n ih =>
    intro s
    rw [reachIter]
    by_cases hfix : reachExtend g s = s
    · rw [if_pos hfix]
      exact fun _ hx => hx
    · rw [if_neg hfix]
      exact fun x hx => ih _ (reachExtend_subset_self g s hx)

lemma reachIter_sound (g : Cfg) (n : Nat) : ∀ s, (∀ x ∈ s, Reach g x) →
    ∀ x ∈ reachIter g n s, Reach g x := by
  induction n with
  | zero => intro s hbase; exact hbase
  | succ n ih =>
    intro s hbase
    rw [reachIter]
    by_cases hfix : reachExtend g s = s
    · rw [if_pos hfix]
      exact hbase
    · rw [if_neg hfix]
      apply ih
      intro x hx
      rcases mem_reachExtend_cases g s x hx with h1 | ⟨_, a, ha, hxa⟩
      · exact hbase x h1
      · exact Relation.ReflTransGen.tail (hbase a ha) hxa

lemma entryId_mem_reachList (g : Cfg) : entryId g ∈ reachList g :=
  subset_reachIter g _ _ (List.mem_singleton.mpr rfl)

lemma reachList_sound (g : Cfg) (x : Int) (h : x ∈ reachList g) :
    Reach g x := by
  apply reachIter_sound g _ _ _ x h
  intro y hy
  rw [List.mem_singleton.mp hy]
  exact Relation.ReflTransGen.refl

lemma reachList_fixed (g : Cfg) :
    reachExtend g (reachList g) = reachList g := by
  apply reachIter_fixed g _ _ (List.nodup_singleton _)
  · intro x hx
    rw [List.mem_singleton.mp hx]
    exact List.mem_cons_self _ _
  · simp only [List.length_singleton]
    omega

lemma reachList_closed (g : Cfg) (a x : Int) (ha : a ∈ reachList g)
    (hx : x ∈ succIds g a) : x ∈ reachList g := by
  by_contra hnx
  have hmem : x ∈ reachExtend g (reachList g) := by
    unfold reachExtend
    apply List.mem_append.mpr
    right
    apply List.mem_dedup.mpr
    apply List.mem_filter.mpr
    exact ⟨List.mem_flatMap.mpr ⟨a, ha, hx⟩, by simpa using hnx⟩
  rw [reachList_fixed] at hmem
  exact hnx hmem

lemma reachList_complete (g : Cfg) (x : Int) (h : Reach g x) :
    x ∈ reachList g := by
  induction h with
  | refl => exact entryId_mem_reachList g
  | tail _ hedge ih => exact reachList_closed g _ _ ih hedge

/-! How each pass transforms block lookup, successors, the entry id and
reachability. -/
lemma findBlock_mem {g : Cfg} {x : Int} {b : BasicBlock}
    (h : findBlock g x = some b) : b ∈ g.blocks ∧ b.b_id = x := by
  unfold findBlock at h
  refine ⟨List.mem_of_find?_eq_some h, ?_⟩
  have := List.find?_some h
  simpa using this

lemma find?_id_eq_of_mem (l : List BasicBlock)
    (hnd : (l.map BasicBlock.b_id).Nodup) (b : BasicBlock) (hb : b ∈ l) :
    l.find? (fun c => decide (c.b_id = b.b_id)) = some b := by
  induction l with
  | nil => cases hb
  | cons a l ih =>
    rw [List.map_cons, List.nodup_cons] at hnd
    rcases List.mem_cons.mp hb with h1 | h2
    · subst h1
      rw [List.find?_cons_of_pos _ (by simp)]
    · have hne : ¬(a.b_id = b.b_id) := by
        intro e
        exact hnd.1 (e ▸ List.mem_map_of_mem _ h2)
      rw [List.find?_cons_of_neg _ (by simpa using hne)]
      exact ih hnd.2 h2

lemma find?_filter_of_find? (p q : BasicBlock → Bool) (l : List BasicBlock)
    (b : BasicBlock) (h : l.find? p = some b) (hq : q b = true) :
    (l.filter q).find? p = some b := by
  induction l with
  | nil => cases h
  | cons a l ih =>
    by_cases hpa : p a = true
    · rw [List.find?_cons_of_pos _ hpa] at h
      cases h
      rw [List.filter_cons_of_pos hq, List.find?_cons_of_pos _ hpa]
    · rw [List.find?_cons_of_neg _ hpa] at h
      by_cases hqa : q a = true
      · rw [List.filter_cons_of_pos hqa, List.find?_cons_of_neg _ hpa]
        exact ih h
      · rw [List.filter_cons_of_neg (by simpa using hqa)]
        exact ih h

lemma find?_filter_none (p q : BasicBlock → Bool) (l : List BasicBlock)
    (h : l.find? p = none) : (l.filter q).find? p = none := by
  rw [List.find?_eq_none] at h ⊢
  intro x hx
  exact h x (List.mem_of_mem_filter hx)

lemma succIds_removeUnreachable_of_mem (g : Cfg) (x : Int)
    (hx : x ∈ reachList g) :
    succIds (removeUnreachable g) x = succIds g x := by
  unfold succIds
  cases hb : findBlock g x with
  | none =>
    have hn : findBlock (removeUnreachable g) x = none := by
      unfold findBlock removeUnreachable at *
      exact find?_filter_none _ _ _ hb
    rw [hn]
  | some b =>
    have hq : decide (b.b_id ∈ reachList g) = true := by
      rw [(findBlock_mem hb).2]
      simpa using hx
    have hs : findBlock (removeUnreachable g) x = some b := by
      unfold findBlock removeUnreachable at *
      exact find?_filter_of_find? _ _ _ _ hb hq
    rw [hs]

lemma findBlock_removeUnreachable_some (g : Cfg) (x : Int) (b : BasicBlock)
    (hnd : (g.blocks.map BasicBlock.b_id).Nodup)
    (h : findBlock (removeUnreachable g) x = some b) :
    findBlock g x = some b := by
  have hm := findBlock_mem h
  have hmem : b ∈ g.blocks := List.mem_of_mem_filter hm.1
  rw [← hm.2]
  unfold findBlock
  exact find?_id_eq_of_mem g.blocks hnd b hmem

lemma succIds_removeUnreachable_subset (g : Cfg)
    (hnd : (g.blocks.map BasicBlock.b_id).Nodup) (x y : Int)
    (hy : y ∈ succIds (removeUnreachable g) x) : y ∈ succIds g x := by
  unfold succIds at hy ⊢
  cases hb : findBlock (removeUnreachable g) x with
  | none =>
    rw [hb] at hy
    cases hy
  | some b =>
    rw [hb] at hy
    rw [findBlock_removeUnreachable_some g x b hnd hb]
    exact hy

lemma entryId_removeUnreachable (g : Cfg) :
    entryId (removeUnreachable g) = entryId g := by
  have hent := entryId_mem_reachList g
  unfold entryId removeUnreachable at *
  cases hbl : g.blocks with
  | nil => rfl
  | cons a l =>
    have ha : a.b_id ∈ reachList g := by
      rw [hbl] at hent
      exact hent
    have hq : decide (a.b_id ∈ reachList g) = true := by
      simpa using ha
    rw [List.filter_cons, if_pos hq]

lemma nodup_ids_removeUnreachable (g : Cfg)
    (hnd : (g.blocks.map BasicBlock.b_id).Nodup) :
    ((removeUnreachable g).blocks.map BasicBlock.b_id).Nodup := by
  unfold removeUnreachable
  exact ((List.filter_sublist _).map _).nodup hnd

lemma Reach_removeUnreachable_iff (g : Cfg)
    (hnd : (g.blocks.map BasicBlock.b_id).Nodup) (x : Int) :
    Reach (removeUnreachable g) x ↔ Reach g x := by
  constructor
  · intro h
    induction h with
    | refl =>
      rw [show entryId (removeUnreachable g) = entryId g from
        entryId_removeUnreachable g]
      exact Relation.ReflTransGen.refl
    | tail _ hedge ih =>
      exact ih.tail (succIds_removeUnreachable_subset g hnd _ _ hedge)
  · intro h
    induction h with
    | refl =>
      rw [← entryId_removeUnreachable g]
      exact Relation.ReflTransGen.refl
    | tail hab hedge ih =>
      have hb := reachList_complete g _ hab
      exact ih.tail (by rw [succIds_removeUnreachable_of_mem g _ hb]; exact hedge)

/-- Removing a redundant trailing jump never changes a block's successor
ids: the removed explicit edge is replaced by the identical fallthrough
edge. -/
lemma blockSuccIds_dropTrailingJumpToNext (b : BasicBlock) :
    blockSuccIds (dropTrailingJumpToNext b) = blockSuccIds b := by
  unfold dropTrailingJumpToNext
  split
  · rfl
  · rename_i nxt hnext
    split
    · rfl
    · rename_i last hlast
      split
      · rename_i hcond
        obtain ⟨hop, harg, hpen⟩ := hcond
        have hne : b.b_instrs ≠ [] := by
          intro e
          rw [e] at hlast
          cases hlast
        have hgl : b.b_instrs.getLast hne = last := by
          have := List.getLast?_eq_getLast b.b_instrs hne
          rw [hlast] at this
          exact (Option.some.inj this).symm
        have hsplit : b.b_instrs.dropLast ++ [last] = b.b_instrs := by
          rw [← hgl]
          exact List.dropLast_append_getLast hne
        have hft : fallsThrough b = false := by
          unfold fallsThrough
          rw [hlast]
          simp [hop, isUncondTransfer]
        have hft' : fallsThrough { b with b_instrs := b.b_instrs.dropLast } = true :=
          hpen
        have htgt : opcodeHasTarget last.i_opcode = true := by
          rw [hop]
          rfl
        unfold blockSuccIds
        rw [hft, hft']
        simp only [if_pos rfl, if_neg (by simp : ¬(false = true))]
        rw [hnext]
        conv_rhs => rw [← hsplit]
        rw [List.filter_append, List.map_append]
        simp [htgt, harg]
      · rfl

/-! Per-pass structure lemmas feeding the optimizer invariant. -/

lemma findBlock_map_pass (f : BasicBlock → BasicBlock)
    (hid : ∀ b, (f b).b_id = b.b_id) (g : Cfg) (x : Int) :
    findBlock ⟨g.blocks.map f⟩ x = (findBlock g x).map f := by
  unfold findBlock
  exact find?_map_id f hid g.blocks x

lemma entryId_map_pass (f : BasicBlock → BasicBlock)
    (hid : ∀ b, (f b).b_id = b.b_id) (g : Cfg) :
    entryId ⟨g.blocks.map f⟩ = entryId g := by
  unfold entryId
  cases g.blocks with
  | nil => rfl
  | cons a l =>
    simp only [List.map_cons]
    exact hid a

lemma ids_map_pass (f : BasicBlock → BasicBlock)
    (hid : ∀ b, (f b).b_id = b.b_id) (g : Cfg) :
    (⟨g.blocks.map f⟩ : Cfg).blocks.map BasicBlock.b_id =
      g.blocks.map BasicBlock.b_id := by
  show (g.blocks.map f).map BasicBlock.b_id = g.blocks.map BasicBlock.b_id
  rw [List.map_map]
  exact List.map_congr_left (fun a _ => hid a)

lemma entryId_simplifyBlocks (consts : List Int) (g : Cfg) :
    entryId (simplifyBlocks consts g) = entryId g :=
  entryId_map_pass _ (simplifyBlock_id consts) g

lemma ids_simplifyBlocks (consts : List Int) (g : Cfg) :
    (simplifyBlocks consts g).blocks.map BasicBlock.b_id =
      g.blocks.map BasicBlock.b_id :=
  ids_map_pass _ (simplifyBlock_id consts) g

lemma entryId_collapseJumps (g : Cfg) :
    entryId (collapseJumps g) = entryId g :=
  entryId_map_pass _ (collapseBlock_id g) g

lemma ids_collapseJumps (g : Cfg) :
    (collapseJumps g).blocks.map BasicBlock.b_id =
      g.blocks.map BasicBlock.b_id :=
  ids_map_pass _ (collapseBlock_id g) g

lemma getLast?_decomp {l : List Instruction} {last : Instruction}
    (h : l.getLast? = some last) : l.dropLast ++ [last] = l := by
  have hne : l ≠ [] := getLast?_isSome_ne_nil h
  have hgl : l.getLast hne = last := by
    have := List.getLast?_eq_getLast l hne
    rw [h] at this
    exact (Option.some.inj this).symm
  rw [← hgl]
  exact List.dropLast_append_getLast hne

lemma fallsThrough_of_getLast? {b : BasicBlock} {i : Instruction}
    (h : b.b_instrs.getLast? = some i) :
    fallsThrough b = !(isUncondTransfer i.i_opcode) := by
  unfold fallsThrough
  rw [h]

/-- `blockSuccIds` of a literal block, spelt out for rewriting. -/
lemma blockSuccIds_mk (id : Int) (instrs : List Instruction)
    (next : Option Int) :
    blockSuccIds ⟨id, instrs, next⟩ =
      (instrs.filter (fun i => opcodeHasTarget i.i_opcode)).map
          (fun i => i.i_oparg) ++
        (if fallsThrough ⟨id, instrs, next⟩ then next.toList else []) := rfl

lemma mem_blockSuccIds_of_target {b : BasicBlock} {i : Instruction}
    (hi : i ∈ b.b_instrs) (ht : opcodeHasTarget i.i_opcode = true) :
    i.i_oparg ∈ blockSuccIds b := by
  unfold blockSuccIds
  exact List.mem_append_left _
    (List.mem_map.mpr ⟨i, List.mem_filter.mpr ⟨hi, ht⟩, rfl⟩)

lemma mem_blockSuccIds_of_next {b : BasicBlock} {y : Int}
    (hft : fallsThrough b = true) (hy : y ∈ b.b_next.toList) :
    y ∈ blockSuccIds b := by
  unfold blockSuccIds
  apply List.mem_append_right
  rw [hft, if_pos rfl]
  exact hy

lemma mem_blockSuccIds_of_sub {b : BasicBlock} {l : List Instruction}
    (hs : List.Sublist l b.b_instrs) {x : Int}
    (hx : x ∈ (l.filter (fun j => opcodeHasTarget j.i_opcode)).map
      (fun j => j.i_oparg)) : x ∈ blockSuccIds b := by
  unfold blockSuccIds
  apply List.mem_append_left
  obtain ⟨i, hi, hie⟩ := List.mem_map.mp hx
  exact List.mem_map.mpr ⟨i, (List.Sublist.filter _ hs).subset hi, hie⟩

lemma condInvert_some (op op' : Int) (h : condInvert op = some op') :
    (op = POP_JUMP_IF_TRUE ∨ op = POP_JUMP_IF_FALSE) ∧
    (op' = POP_JUMP_IF_TRUE ∨ op' = POP_JUMP_IF_FALSE) := by
  unfold condInvert at h
  split at h
  · rename_i h1
    cases h
    exact ⟨Or.inl h1, Or.inr rfl⟩
  · split at h
    · rename_i h1 h2
      cases h
      exact ⟨Or.inr h2, Or.inl rfl⟩
    · cases h

/-- Every successor edge a branch fold leaves behind was already an edge of
the block: the retained unconditional jump reuses the conditional jump's
target, and the dropped edge (fallthrough or jump into the dead arm) is
only removed, never replaced. -/
lemma blockSuccIds_foldBranch (consts : List Int) (b b' : BasicBlock)
    (h : foldBranch consts b = some b') (x : Int)
    (hx : x ∈ blockSuccIds b') : x ∈ blockSuccIds b := by
  obtain ⟨last, hlast, hops, hdne, hor⟩ := foldBranch_some consts b b' h
  have hdecomp : b.b_instrs.dropLast ++ [last] = b.b_instrs :=
    getLast?_decomp hlast
  have hlmem : last ∈ b.b_instrs := by
    rw [← hdecomp]
    exact List.mem_append_right _ (List.mem_singleton.mpr rfl)
  have hsub : List.Sublist b.b_instrs.dropLast.dropLast b.b_instrs :=
    (List.dropLast_sublist _).trans (List.dropLast_sublist _)
  have hlt : opcodeHasTarget last.i_opcode = true := by
    rcases hops with ho | ho <;> rw [ho] <;> decide
  have hft : fallsThrough b = true := by
    rw [fallsThrough_of_getLast? hlast]
    rcases hops with ho | ho <;> rw [ho] <;> decide
  rcases hor with he | he
  · rw [he, blockSuccIds_mk] at hx
    rcases List.mem_append.mp hx with h1 | h2
    · rw [List.filter_append, List.map_append] at h1
      rcases List.mem_append.mp h1 with h3 | h4
      · exact mem_blockSuccIds_of_sub hsub h3
      · have hpj : (fun j => opcodeHasTarget j.i_opcode)
            ({ last with i_opcode := JUMP } : Instruction) = true := by
          show opcodeHasTarget JUMP = true
          decide
        rw [List.filter_cons, if_pos hpj] at h4
        simp only [List.filter_nil, List.map_cons, List.map_nil,
          List.mem_singleton] at h4
        rw [h4]
        exact mem_blockSuccIds_of_target hlmem hlt
    · have hflam : fallsThrough { b with b_instrs :=
          b.b_instrs.dropLast.dropLast ++
            [{ last with i_opcode := JUMP }] } = false := by
        rw [fallsThrough_of_getLast? (List.getLast?_concat _)]
        show (!isUncondTransfer JUMP) = false
        decide
      rw [hflam] at h2
      simp at h2
  · rw [he, blockSuccIds_mk] at hx
    rcases List.mem_append.mp hx with h1 | h2
    · exact mem_blockSuccIds_of_sub hsub h1
    · by_cases hfb' : fallsThrough { b with b_instrs :=
          b.b_instrs.dropLast.dropLast } = true
      · rw [if_pos hfb'] at h2
        exact mem_blockSuccIds_of_next hft h2
      · rw [if_neg hfb'] at h2
        cases h2

/-- Conditional-jump inversion keeps the block's successor edges: the
inverted jump reuses the target and the block still falls through. -/
lemma blockSuccIds_invertNotCond (b b' : BasicBlock)
    (h : invertNotCond b = some b') (x : Int)
    (hx : x ∈ blockSuccIds b') : x ∈ blockSuccIds b := by
  obtain ⟨last, op', hlast, hop, hdne, he⟩ := invertNotCond_some b b' h
  obtain ⟨hops, hops'⟩ := condInvert_some last.i_opcode op' hop
  have hdecomp : b.b_instrs.dropLast ++ [last] = b.b_instrs :=
    getLast?_decomp hlast
  have hlmem : last ∈ b.b_instrs := by
    rw [← hdecomp]
    exact List.mem_append_right _ (List.mem_singleton.mpr rfl)
  have hsub : List.Sublist b.b_instrs.dropLast.dropLast b.b_instrs :=
    (List.dropLast_sublist _).trans (List.dropLast_sublist _)
  have hlt : opcodeHasTarget last.i_opcode = true := by
    rcases hops with ho | ho <;> rw [ho] <;> decide
  have hft : fallsThrough b = true := by
    rw [fallsThrough_of_getLast? hlast]
    rcases hops with ho | ho <;> rw [ho] <;> decide
  rw [he, blockSuccIds_mk] at hx
  rcases List.mem_append.mp hx with h1 | h2
  · rw [List.filter_append, List.map_append] at h1
    rcases List.mem_append.mp h1 with h3 | h4
    · exact mem_blockSuccIds_of_sub hsub h3
    · have hpj : (fun j => opcodeHasTarget j.i_opcode)
          ({ last with i_opcode := op' } : Instruction) = true := by
        show opcodeHasTarget op' = true
        rcases hops' with ho | ho <;> rw [ho] <;> decide
      rw [List.filter_cons, if_pos hpj] at h4
      simp only [List.filter_nil, List.map_cons, List.map_nil,
        List.mem_singleton] at h4
      rw [h4]
      exact mem_blockSuccIds_of_target hlmem hlt
  · by_cases hfb' : fallsThrough { b with b_instrs :=
        b.b_instrs.dropLast.dropLast ++ [{ last with i_opcode := op' }] } = true
    · rw [if_pos hfb'] at h2
      exact mem_blockSuccIds_of_next hft h2
    · rw [if_neg hfb'] at h2
      cases h2

/-- The block simplifications never create a successor edge: every edge of
the simplified block was an edge of the original block. -/
lemma blockSuccIds_simplifyBlock (consts : List Int) (b : BasicBlock) (x : Int)
    (hx : x ∈ blockSuccIds (simplifyBlock consts b)) : x ∈ blockSuccIds b := by
  unfold simplifyBlock at hx
  cases hf : foldBranch consts b with
  | some b' =>
    rw [hf] at hx
    exact blockSuccIds_foldBranch consts b b' hf x hx
  | none =>
    rw [hf] at hx
    cases hinv : invertNotCond b with
    | some b' =>
      rw [hinv] at hx
      exact blockSuccIds_invertNotCond b b' hinv x hx
    | none =>
      rw [hinv] at hx
      have hx' : x ∈ blockSuccIds (dropTrailingJumpToNext b) := hx
      rw [blockSuccIds_dropTrailingJumpToNext] at hx'
      exact hx'

lemma succIds_simplifyBlocks_subset (consts : List Int) (g : Cfg) (a y : Int)
    (hy : y ∈ succIds (simplifyBlocks consts g) a) : y ∈ succIds g a := by
  unfold succIds at hy ⊢
  have hfb : findBlock (simplifyBlocks consts g) a =
      (findBlock g a).map (simplifyBlock consts) :=
    findBlock_map_pass _ (simplifyBlock_id consts) g a
  rw [hfb] at hy
  cases hb : findBlock g a with
  | none =>
    rw [hb] at hy
    have hy' : y ∈ ([] : List Int) := hy
    cases hy'
  | some b =>
    rw [hb] at hy
    have hy' : y ∈ blockSuccIds (simplifyBlock consts b) := hy
    exact blockSuccIds_simplifyBlock consts b y hy'

/-- Backward simulation of the simplification pass: a reachable id of the
simplified graph was reachable before. -/
lemma Reach_simplifyBlocks (consts : List Int) (g : Cfg) (x : Int)
    (h : Reach (simplifyBlocks consts g) x) : Reach g x := by
  unfold Reach at h ⊢
  rw [entryId_simplifyBlocks] at h
  induction h with
  | refl => exact Relation.ReflTransGen.refl
  | tail _ hedge ih =>
    exact ih.tail (succIds_simplifyBlocks_subset consts g _ _ hedge)

lemma getLast?_map {α β : Type} (f : α → β) : ∀ l : List α,
    (l.map f).getLast? = (l.getLast?).map f
  | [] => rfl
  | [_] => rfl
  | a :: x :: xs => by
    have ih := getLast?_map f (x :: xs)
    rw [List.map_cons] at ih
    rw [List.map_cons, List.map_cons, List.getLast?_cons_cons,
      List.getLast?_cons_cons]
    exact ih

lemma fallsThrough_collapseBlock (g : Cfg) (b : BasicBlock) :
    fallsThrough { b with b_instrs := b.b_instrs.map (collapseInstr g) } =
      fallsThrough b := by
  unfold fallsThrough
  rw [show ({ b with b_instrs := b.b_instrs.map (collapseInstr g) } :
      BasicBlock).b_instrs = b.b_instrs.map (collapseInstr g) from rfl]
  rw [getLast?_map]
  cases b.b_instrs.getLast? with
  | none => rfl
  | some i =>
    show (!isUncondTransfer (collapseInstr g i).i_opcode) =
      (!isUncondTransfer i.i_opcode)
    rw [collapseInstr_opcode]

lemma mem_targets_map_collapse (g : Cfg) (l : List Instruction) (c : Int)
    (hc : c ∈ ((l.map (collapseInstr g)).filter
      (fun j => opcodeHasTarget j.i_opcode)).map (fun j => j.i_oparg)) :
    ∃ i ∈ l, opcodeHasTarget i.i_opcode = true ∧
      (c = i.i_oparg ∨ c = collapseTarget g i.i_oparg) := by
  obtain ⟨j, hj, hje⟩ := List.mem_map.mp hc
  obtain ⟨hjm, hjt⟩ := List.mem_filter.mp hj
  obtain ⟨i, hi, hie⟩ := List.mem_map.mp hjm
  refine ⟨i, hi, ?_, ?_⟩
  · rw [← collapseInstr_opcode g i, hie]
    exact hjt
  · unfold collapseInstr at hie
    by_cases hj2 : _PyCompile_OpcodeHasJump i.i_opcode = true
    · rw [if_pos hj2] at hie
      right
      rw [← hje, ← hie]
    · rw [if_neg hj2] at hie
      left
      rw [← hje, hie]

/-- A trampoline block's jump target is among its successor ids. -/
lemma trampolineTarget_succ (tb : BasicBlock) (c : Int)
    (h : trampolineTarget tb = some c) : c ∈ blockSuccIds tb := by
  unfold trampolineTarget at h
  split at h
  · rename_i i hinstr
    split at h
    · rename_i hop
      cases h
      have hit : opcodeHasTarget i.i_opcode = true := by
        rw [hop]
        decide
      exact mem_blockSuccIds_of_target
        (by rw [hinstr]; exact List.mem_singleton.mpr rfl) hit
    · cases h
  · cases h

/-- Every successor edge of a collapsed block either existed before or
retargets an existing edge through a trampoline block of the graph. -/
lemma blockSuccIds_collapseBlock (g : Cfg) (b : BasicBlock) (c : Int)
    (hc : c ∈ blockSuccIds (collapseBlock g b)) :
    c ∈ blockSuccIds b ∨
    ∃ t, t ∈ blockSuccIds b ∧ ∃ tb, findBlock g t = some tb ∧
      trampolineTarget tb = some c := by
  unfold collapseBlock at hc
  rw [blockSuccIds_mk] at hc
  rcases List.mem_append.mp hc with h1 | h2
  · rcases mem_targets_map_collapse g b.b_instrs c h1 with ⟨i, hi, hit, hor⟩
    rcases hor with he | he
    · left
      rw [he]
      exact mem_blockSuccIds_of_target hi hit
    · rcases collapseTarget_cases g i.i_oparg with hcc | ⟨tb, hfb, htt, _⟩
      · left
        rw [he, hcc]
        exact mem_blockSuccIds_of_target hi hit
      · right
        refine ⟨i.i_oparg, mem_blockSuccIds_of_target hi hit, tb, hfb, ?_⟩
        rw [he]
        exact htt
  · left
    rw [fallsThrough_collapseBlock] at h2
    by_cases hfb : fallsThrough b = true
    · rw [if_pos hfb] at h2
      exact mem_blockSuccIds_of_next hfb h2
    · rw [if_neg hfb] at h2
      cases h2

/-- A collapsed successor edge corresponds to an edge or a two-edge path
through a trampoline in the graph before the pass. -/
lemma succIds_collapseJumps_mem (g : Cfg) (a c : Int)
    (hc : c ∈ succIds (collapseJumps g) a) :
    c ∈ succIds g a ∨ ∃ t, t ∈ succIds g a ∧ c ∈ succIds g t := by
  unfold succIds at hc
  rw [findBlock_collapseJumps] at hc
  cases hb : findBlock g a with
  | none =>
    rw [hb] at hc
    have hc' : c ∈ ([] : List Int) := hc
    cases hc'
  | some b =>
    rw [hb] at hc
    have hsa : succIds g a = blockSuccIds b := by
      unfold succIds
      rw [hb]
    have hc' : c ∈ blockSuccIds (collapseBlock g b) := hc
    rcases blockSuccIds_collapseBlock g b c hc' with h1 | ⟨t, ht, tb, hfbt, htt⟩
    · left
      rw [hsa]
      exact h1
    · right
      refine ⟨t, by rw [hsa]; exact ht, ?_⟩
      have hst : succIds g t = blockSuccIds tb := by
        unfold succIds
        rw [hfbt]
      rw [hst]
      exact trampolineTarget_succ tb c htt

/-- Backward simulation of jump-to-jump collapse: a reachable id of the
collapsed graph was reachable before, the collapsed edge replaced by the
path through the trampoline it bypassed. -/
lemma Reach_collapseJumps (g : Cfg) (x : Int)
    (h : Reach (collapseJumps g) x) : Reach g x := by
  unfold Reach at h ⊢
  rw [entryId_collapseJumps] at h
  induction h with
  | refl => exact Relation.ReflTransGen.refl
  | tail _ hedge ih =>
    rcases succIds_collapseJumps_mem g _ _ hedge with h1 | ⟨t, ht1, ht2⟩
    · exact ih.tail h1
    · exact (ih.tail ht1).tail ht2

lemma mem_ids_removeUnreachable (g : Cfg) (x : Int)
    (hx : x ∈ g.blocks.map BasicBlock.b_id) (hr : Reach g x) :
    x ∈ (removeUnreachable g).blocks.map BasicBlock.b_id := by
  obtain ⟨b, hb, hbid⟩ := List.mem_map.mp hx
  have hq : decide (b.b_id ∈ reachList g) = true := by
    rw [hbid]
    simpa using reachList_complete g x hr
  apply List.mem_map.mpr
  refine ⟨b, ?_, hbid⟩
  unfold removeUnreachable
  exact List.mem_filter.mpr ⟨hb, hq⟩

/-! The optimizer-loop invariant (claim C6). -/

lemma optPreserved_refl (g : Cfg)
    (hnd : (g.blocks.map BasicBlock.b_id).Nodup) : OptPreserved g g :=
  ⟨rfl, hnd, fun _ hx _ => hx⟩

lemma optPreserved_step (consts : List Int) (g h : Cfg)
    (inv : OptPreserved g h) : OptPreserved g (optStep consts h) := by
  obtain ⟨i1, i2, i3⟩ := inv
  unfold optStep
  by_cases hru : removeUnreachable h = h
  · rw [if_neg (fun hc => hc hru)]
    by_cases hsim : simplifyBlocks consts h = h
    · rw [if_neg (fun hc => hc hsim)]
      refine ⟨?_, ?_, ?_⟩
      · rw [entryId_collapseJumps]
        exact i1
      · rw [ids_collapseJumps]
        exact i2
      · intro x hx hr
        rw [ids_collapseJumps]
        exact i3 x hx (Reach_collapseJumps h x hr)
    · rw [if_pos hsim]
      refine ⟨?_, ?_, ?_⟩
      · rw [entryId_simplifyBlocks]
        exact i1
      · rw [ids_simplifyBlocks]
        exact i2
      · intro x hx hr
        rw [ids_simplifyBlocks]
        exact i3 x hx (Reach_simplifyBlocks consts h x hr)
  · rw [if_pos hru]
    refine ⟨?_, ?_, ?_⟩
    · rw [entryId_removeUnreachable]
      exact i1
    · exact nodup_ids_removeUnreachable h i2
    · intro x hx hr
      have hrh : Reach h x := (Reach_removeUnreachable_iff h i2 x).mp hr
      exact mem_ids_removeUnreachable h x (i3 x hx hrh) hrh

lemma optPreserved_loop (consts : List Int) (g : Cfg) : ∀ n h,
    OptPreserved g h → OptPreserved g (optLoop consts n h) := by
  intro n
  induction n with
  | zero =>
    intro h inv
    exact inv
  | succ n ih =>
    intro h inv
    rw [optLoop]
    by_cases hfix : optStep consts h = h
    · rw [if_pos hfix]
      exact inv
    · rw [if_neg hfix]
      exact ih _ (optPreserved_step consts g h inv)

lemma optimize_optPreserved (g : Cfg) (consts : List Int)
    (hnd : (g.blocks.map BasicBlock.b_id).Nodup) :
    OptPreserved g (_PyCfg_OptimizeCodeUnit g consts) :=
  optPreserved_loop consts g _ g (optPreserved_refl g hnd)

lemma optStep_fixed_ru (consts : List Int) (h : Cfg)
    (hfix : optStep consts h = h) : removeUnreachable h = h := by
  unfold optStep at hfix
  by_cases hru : removeUnreachable h = h
  · exact hru
  · rw [if_pos hru] at hfix
    exact absurd hfix hru

lemma ru_fixed_blocks (h : Cfg) (hfix : removeUnreachable h = h)
    (b : BasicBlock) (hb : b ∈ h.blocks) : b.b_id ∈ reachList h := by
  have hblocks : h.blocks.filter (fun b => decide (b.b_id ∈ reachList h)) =
      h.blocks := congrArg Cfg.blocks hfix
  have := List.filter_eq_self.mp hblocks b hb
  simpa using this

/-- Claim C6: after the full optimization (unreachable-block elimination
interleaved with the edge-rewriting jump simplifications and branch-outcome
folding, run to a fixpoint) the entry block is always present; a block of
the input graph survives if and only if it is reachable from the entry
block along the optimized graph's edges; and, equivalently, a non-entry
block survives if and only if some surviving block still lists it as a
successor — it is absent exactly when it has no remaining predecessor. -/
theorem optimize_removes_exactly_unreachable (g : Cfg) (consts : List Int)
    (hnd : (g.blocks.map BasicBlock.b_id).Nodup) (hne : g.blocks ≠ []) :
    (∃ b ∈ (_PyCfg_OptimizeCodeUnit g consts).blocks, b.b_id = entryId g) ∧
    (∀ b ∈ g.blocks,
      ((∃ b' ∈ (_PyCfg_OptimizeCodeUnit g consts).blocks, b'.b_id = b.b_id) ↔
        Reach (_PyCfg_OptimizeCodeUnit g consts) b.b_id)) ∧
    (∀ b ∈ g.blocks, b.b_id ≠ entryId g →
      ((∃ b' ∈ (_PyCfg_OptimizeCodeUnit g consts).blocks, b'.b_id = b.b_id) ↔
        ∃ p ∈ (_PyCfg_OptimizeCodeUnit g consts).blocks,
          b.b_id ∈ blockSuccIds p)) := by
  obtain ⟨i1, i2, i3⟩ := optimize_optPreserved g consts hnd
  have hfix := optStep_fixed_ru consts _ (optimize_is_fixed g consts)
  have hsurv : ∀ b' ∈ (_PyCfg_OptimizeCodeUnit g consts).blocks,
      Reach (_PyCfg_OptimizeCodeUnit g consts) b'.b_id := by
    intro b' hb'
    exact reachList_sound _ _ (ru_fixed_blocks _ hfix b' hb')
  have hpresent : ∀ b ∈ g.blocks,
      ((∃ b' ∈ (_PyCfg_OptimizeCodeUnit g consts).blocks, b'.b_id = b.b_id) ↔
        Reach (_PyCfg_OptimizeCodeUnit g consts) b.b_id) := by
    intro b hb
    constructor
    · intro ⟨b', hb', hid⟩
      have hr := hsurv b' hb'
      rw [hid] at hr
      exact hr
    · intro hr
      have hmem := i3 b.b_id (List.mem_map.mpr ⟨b, hb, rfl⟩) hr
      obtain ⟨b', hb', hid⟩ := List.mem_map.mp hmem
      exact ⟨b', hb', hid⟩
  have hfindG : ∀ p ∈ (_PyCfg_OptimizeCodeUnit g consts).blocks,
      findBlock (_PyCfg_OptimizeCodeUnit g consts) p.b_id = some p := by
    intro p hp
    unfold findBlock
    exact find?_id_eq_of_mem _ i2 p hp
  refine ⟨?_, hpresent, ?_⟩
  · cases hbl : g.blocks with
    | nil => exact absurd hbl hne
    | cons c rest =>
      have hcb : c ∈ g.blocks := by
        rw [hbl]
        exact List.mem_cons_self _ _
      have hcid : c.b_id = entryId g := by
        unfold entryId
        rw [hbl]
      have hr : Reach (_PyCfg_OptimizeCodeUnit g consts) c.b_id := by
        rw [hcid, ← i1]
        exact Relation.ReflTransGen.refl
      obtain ⟨b', hb', hid⟩ := (hpresent c hcb).mpr hr
      exact ⟨b', hb', by rw [hid, hcid]⟩
  · intro b hb hnotentry
    constructor
    · intro hpres
      have hr := (hpresent b hb).mp hpres
      rcases Relation.ReflTransGen.cases_tail hr with heq | ⟨c, hrc, hedge⟩
      · rw [i1] at heq
        exact absurd heq hnotentry
      · cases hfb : findBlock (_PyCfg_OptimizeCodeUnit g consts) c with
        | none =>
          have hz : succIds (_PyCfg_OptimizeCodeUnit g consts) c = [] := by
            unfold succIds
            rw [hfb]
          rw [hz] at hedge
          cases hedge
        | some p =>
          have hs : succIds (_PyCfg_OptimizeCodeUnit g consts) c =
              blockSuccIds p := by
            unfold succIds
            rw [hfb]
          rw [hs] at hedge
          exact ⟨p, (findBlock_mem hfb).1, hedge⟩
    · intro ⟨p, hp, hmem⟩
      have hrp : Reach (_PyCfg_OptimizeCodeUnit g consts) p.b_id := hsurv p hp
      have hedge : b.b_id ∈ succIds (_PyCfg_OptimizeCodeUnit g consts)
          p.b_id := by
        have hs : succIds (_PyCfg_OptimizeCodeUnit g consts) p.b_id =
            blockSuccIds p := by
          unfold succIds
          rw [hfindG p hp]
        rw [hs]
        exact hmem
      exact (hpresent b hb).mpr (Relation.ReflTransGen.tail hrp hedge)

/-- Witness for claim C6 at the concrete graph `gC6` with an empty constant
table. -/
theorem optimize_removes_exactly_unreachable_witness :
    (∃ b ∈ (_PyCfg_OptimizeCodeUnit gC6 []).blocks, b.b_id = entryId gC6) ∧
    (∀ b ∈ gC6.blocks,
      ((∃ b' ∈ (_PyCfg_OptimizeCodeUnit gC6 []).blocks, b'.b_id = b.b_id) ↔
        Reach (_PyCfg_OptimizeCodeUnit gC6 []) b.b_id)) ∧
    (∀ b ∈ gC6.blocks, b.b_id ≠ entryId gC6 →
      ((∃ b' ∈ (_PyCfg_OptimizeCodeUnit gC6 []).blocks, b'.b_id = b.b_id) ↔
        ∃ p ∈ (_PyCfg_OptimizeCodeUnit gC6 []).blocks,
          b.b_id ∈ blockSuccIds p)) :=
  optimize_removes_exactly_unreachable gC6 [] (by decide) (by decide)

/-- Claim C1: assembly is deterministic — `_PyAssemble_MakeCodeObject` is a
pure function of its input metadata, constants, instruction sequence and
filename, so two runs on the same inputs return the same result, and when
they succeed, byte-identical bytecode and identical side tables (exception
table, source-location table, constant and name/variable tables). -/
theorem assemble_deterministic (u : _PyCompile_CodeUnitMetadata)
    (consts : List Int) (maxdepth : Int) (instrs : List Instruction)
    (nlocalsplus code_flags : Int) (filename : String) :
    _PyAssemble_MakeCodeObject u consts maxdepth instrs nlocalsplus
        code_flags filename =
      _PyAssemble_MakeCodeObject u consts maxdepth instrs nlocalsplus
        code_flags filename ∧
    ∀ c1 c2,
      _PyAssemble_MakeCodeObject u consts maxdepth instrs nlocalsplus
          code_flags filename = .ok c1 →
      _PyAssemble_MakeCodeObject u consts maxdepth instrs nlocalsplus
          code_flags filename = .ok c2 →
      c1.co_code = c2.co_code ∧
      c1.co_exceptiontable = c2.co_exceptiontable ∧
      c1.co_loctable = c2.co_loctable ∧
      c1.co_consts = c2.co_consts ∧
      c1.co_names = c2.co_names ∧
      c1.co_varnames = c2.co_varnames ∧
      c1.co_cellvars = c2.co_cellvars ∧
      c1.co_freevars = c2.co_freevars := by
  refine ⟨rfl, ?_⟩
  intro c1 c2 h1 h2
  rw [h1] at h2
  cases h2
  exact ⟨rfl, rfl, rfl, rfl, rfl, rfl, rfl, rfl⟩

/-- Witness for claim C1: the §8.a example assembles (twice) to the very
same Code Object with identical bytecode and side tables. -/
theorem assemble_deterministic_witness :
    _PyAssemble_MakeCodeObject uC1 [1, 2] 2 instrsC1 0 0 "f.py" = .ok cC1 ∧
    (cC1.co_code = cC1.co_code ∧
      cC1.co_exceptiontable = cC1.co_exceptiontable ∧
      cC1.co_loctable = cC1.co_loctable ∧
      cC1.co_consts = cC1.co_consts ∧
      cC1.co_names = cC1.co_names ∧
      cC1.co_varnames = cC1.co_varnames ∧
      cC1.co_cellvars = cC1.co_cellvars ∧
      cC1.co_freevars = cC1.co_freevars) :=
  ⟨rfl, (assemble_deterministic uC1 [1, 2] 2 instrsC1 0 0 "f.py").2 cC1 cC1
    rfl rfl⟩

/-! Lemmas on the stack-depth data flow (claim C7). -/
lemma find?_append_left {α : Type} (p : α → Bool) (l m : List α) (b : α)
    (h : l.find? p = some b) : (l ++ m).find? p = some b := by
  induction l with
  | nil => cases h
  | cons a l ih =>
    by_cases hpa : p a = true
    · rw [List.find?_cons_of_pos _ hpa] at h
      rw [List.cons_append, List.find?_cons_of_pos _ hpa]
      exact h
    · rw [List.find?_cons_of_neg _ hpa] at h
      rw [List.cons_append, List.find?_cons_of_neg _ hpa]
      exact ih h

lemma find?_append_right {α : Type} (p : α → Bool) (l m : List α)
    (h : l.find? p = none) : (l ++ m).find? p = m.find? p := by
  induction l with
  | nil => rfl
  | cons a l ih =>
    by_cases hpa : p a = true
    · rw [List.find?_cons_of_pos _ hpa] at h
      cases h
    · rw [List.find?_cons_of_neg _ hpa] at h
      rw [List.cons_append, List.find?_cons_of_neg _ hpa]
      exact ih h

lemma lookupDepth_mono (depths ext : List (Int × Int)) (x d : Int)
    (h : lookupDepth depths x = some d) :
    lookupDepth (depths ++ ext) x = some d := by
  unfold lookupDepth at *
  cases hf : depths.find? (fun p => decide (p.1 = x)) with
  | none =>
    rw [hf] at h
    cases h
  | some b =>
    rw [hf] at h
    rw [find?_append_left _ _ _ _ hf]
    exact h

lemma lookupDepth_append_self (depths : List (Int × Int)) (s d : Int)
    (h : lookupDepth depths s = none) :
    lookupDepth (depths ++ [(s, d)]) s = some d := by
  unfold lookupDepth at *
  have hf : depths.find? (fun p => decide (p.1 = s)) = none := by
    cases hf : depths.find? (fun p => decide (p.1 = s)) with
    | none => rfl
    | some b =>
      rw [hf] at h
      cases h
  rw [find?_append_right _ _ _ hf]
  rw [List.find?_cons_of_pos _ (by simp)]
  rfl

lemma lookupDepth_some_of_append (depths ext : List (Int × Int)) (x dx : Int)
    (h : lookupDepth (depths ++ ext) x = some dx) :
    lookupDepth depths x = some dx ∨
    (lookupDepth depths x = none ∧ lookupDepth ext x = some dx) := by
  unfold lookupDepth at *
  cases hf : depths.find? (fun p => decide (p.1 = x)) with
  | some b =>
    left
    rw [find?_append_left _ _ _ _ hf] at h
    exact h
  | none =>
    right
    rw [find?_append_right _ _ _ hf] at h
    exact ⟨rfl, h⟩

lemma lookupDepth_mem_keys (l : List (Int × Int)) (x dx : Int)
    (h : lookupDepth l x = some dx) : x ∈ l.map Prod.fst := by
  unfold lookupDepth at h
  cases hf : l.find? (fun p => decide (p.1 = x)) with
  | none =>
    rw [hf] at h
    cases h
  | some b =>
    have hb := List.mem_of_find?_eq_some hf
    have hkey : b.1 = x := by
      have := List.find?_some hf
      simpa using this
    exact hkey ▸ List.mem_map_of_mem _ hb

lemma processSuccs_error (d : Int) : ∀ (ss : List Int)
    (depths : List (Int × Int)) (queue : List Int) (e : CompileError),
    processSuccs d ss depths queue = .error e →
    e = .internal "stack depth mismatch between predecessors" := by
  intro ss
  induction ss with
  | nil =>
    intro depths queue e h
    cases h
  | cons s rest ih =>
    intro depths queue e h
    unfold processSuccs at h
    split at h
    · split at h
      · exact ih _ _ _ h
      · cases h
        rfl
    · exact ih _ _ _ h

lemma processSuccs_ok (d : Int) : ∀ (ss : List Int)
    (depths : List (Int × Int)) (queue : List Int)
    (depths' : List (Int × Int)) (queue' : List Int),
    processSuccs d ss depths queue = .ok (depths', queue') →
    (∃ ext : List (Int × Int),
      depths' = depths ++ ext ∧
      queue' = queue ++ ext.map Prod.fst ∧
      ∀ p ∈ ext, p.1 ∈ ss) ∧
    (∀ s ∈ ss, lookupDepth depths' s = some d) := by
  intro ss
  induction ss with
  | nil =>
    intro depths queue depths' queue' h
    cases h
    refine ⟨⟨[], by simp, by simp, by simp⟩, by simp⟩
  | cons s rest ih =>
    intro depths queue depths' queue' h
    unfold processSuccs at h
    split at h
    · rename_i d' hl
      split at h
      · rename_i hd
        subst hd
        obtain ⟨⟨ext, he, hq, hss⟩, hall⟩ := ih depths queue depths' queue' h
        refine ⟨⟨ext, he, hq, fun p hp => List.mem_cons_of_mem _ (hss p hp)⟩, ?_⟩
        intro t ht
        rcases List.mem_cons.mp ht with h1 | h2
        · subst h1
          rw [he]
          exact lookupDepth_mono _ _ _ _ hl
        · exact hall t h2
      · cases h
    · rename_i hl
      obtain ⟨⟨ext, he, hq, hss⟩, hall⟩ :=
        ih (depths ++ [(s, d)]) (queue ++ [s]) depths' queue' h
      refine ⟨⟨(s, d) :: ext, ?_, ?_, ?_⟩, ?_⟩
      · rw [he, List.append_assoc]
        rfl
      · rw [hq, List.append_assoc]
        rfl
      · intro p hp
        rcases List.mem_cons.mp hp with h1 | h2
        · subst h1
          exact List.mem_cons_self _ _
        · exact List.mem_cons_of_mem _ (hss p h2)
      · intro t ht
        rcases List.mem_cons.mp ht with h1 | h2
        · subst h1
          rw [he]
          exact lookupDepth_mono _ _ _ _ (lookupDepth_append_self depths t d hl)
        · exact hall t h2

lemma stackdepthLoop_error (g : Cfg) : ∀ (n : Nat)
    (depths : List (Int × Int)) (queue : List Int) (e : CompileError),
    stackdepthLoop g n depths queue = .error e →
    ∃ m, e = .internal m := by
  intro n
  induction n with
  | zero =>
    intro depths queue e h
    cases h
    exact ⟨_, rfl⟩
  | succ n ih =>
    intro depths queue e h
    cases queue with
    | nil => cases h
    | cons x rest =>
      unfold stackdepthLoop at h
      split at h
      · cases h
        exact ⟨_, rfl⟩
      · rename_i d hl
        split at h
        · rename_i e' hp
          cases h
          exact ⟨_, processSuccs_error _ _ _ _ _ hp⟩
        · rename_i depths' queue' hp
          exact ih depths' queue' e h

lemma stackdepthLoop_ok (g : Cfg) : ∀ (n : Nat)
    (depths : List (Int × Int)) (queue : List Int)
    (final : List (Int × Int)),
    stackdepthLoop g n depths queue = .ok final →
    (∀ x dx, lookupDepth depths x = some dx → x ∉ queue →
      ∀ s ∈ succIds g x, lookupDepth depths s = some (dx + blockEffectOf g x)) →
    (∀ x dx, lookupDepth depths x = some dx → lookupDepth final x = some dx) ∧
    (∀ x dx, lookupDepth final x = some dx →
      ∀ s ∈ succIds g x, lookupDepth final s = some (dx + blockEffectOf g x)) := by
  intro n
  induction n with
  | zero =>
    intro depths queue final h _
    cases h
  | succ n ih =>
    intro depths queue final h hB
    cases queue with
    | nil =>
      cases h
      refine ⟨fun x dx hx => hx, ?_⟩
      intro x dx hx s hs
      exact hB x dx hx (List.not_mem_nil x) s hs
    | cons x rest =>
      unfold stackdepthLoop at h
      split at h
      · cases h
      · rename_i d hl
        split at h
        · cases h
        · rename_i depths' queue' hp
          obtain ⟨⟨ext, he, hq, hss⟩, hall⟩ :=
            processSuccs_ok (d + blockEffectOf g x) (succIds g x) depths rest
              depths' queue' hp
          have hB' : ∀ y dy, lookupDepth depths' y = some dy → y ∉ queue' →
              ∀ s ∈ succIds g y,
                lookupDepth depths' s = some (dy + blockEffectOf g y) := by
            intro y dy hdy hnq s hs
            rw [he] at hdy
            rcases lookupDepth_some_of_append depths ext y dy hdy with hcase | ⟨hnone, hext⟩
            · by_cases hyx : y = x
              · subst hyx
                have hdd : d = dy := Option.some.inj (hl.symm.trans hcase)
                subst hdd
                exact hall s hs
              · have hnrest : y ∉ rest := by
                  intro hyr
                  exact hnq (by rw [hq]; exact List.mem_append.mpr (Or.inl hyr))
                have hnqueue : y ∉ x :: rest := by
                  intro hmem
                  rcases List.mem_cons.mp hmem with h1 | h2
                  · exact hyx h1
                  · exact hnrest h2
                have := hB y dy hcase hnqueue s hs
                rw [he]
                exact lookupDepth_mono _ _ _ _ this
            · exfalso
              apply hnq
              rw [hq]
              exact List.mem_append.mpr (Or.inr (lookupDepth_mem_keys ext y dy hext))
          obtain ⟨hmono, hcons⟩ := ih depths' queue' final h hB'
          constructor
          · intro y dy hdy
            apply hmono
            rw [he]
            exact lookupDepth_mono _ _ _ _ hdy
          · exact hcons

/-- Claim C7: stack-depth consistency.  Whenever the data-flow pass accepts
a graph, every block with a computed entry depth has, for every edge to a
successor, the successor's computed entry depth equal to the block's exit
depth (entry depth plus the block's net stack effect) — and every block
reachable from the entry block has a computed entry depth.  Whenever the
pass rejects a graph (in particular, when two predecessors disagree on a
block's entry depth), the error is the internal fatal variant, it
propagates through `_PyCfg_OptimizedCfgToInstructionSequence`, and no Code
Object is ever assembled from that graph. -/
theorem stackdepth_consistency (g : Cfg) :
    (∀ final, computeStackdepth g = .ok final →
      (∀ x dx, lookupDepth final x = some dx →
        ∀ s ∈ succIds g x, lookupDepth final s = some (dx + blockEffectOf g x)) ∧
      (∀ x, Reach g x → ∃ dx, lookupDepth final x = some dx)) ∧
    (∀ e, computeStackdepth g = .error e →
      (∃ m, e = CompileError.internal m) ∧
      _PyCfg_OptimizedCfgToInstructionSequence g = .error e ∧
      (∀ u consts nlocalsplus code_flags filename,
        cfgToCodeObject g u consts nlocalsplus code_flags filename =
          .error e)) := by
  constructor
  · intro final h
    unfold computeStackdepth at h
    have hB₀ : ∀ x dx, lookupDepth [(entryId g, 0)] x = some dx →
        x ∉ [entryId g] →
        ∀ s ∈ succIds g x,
          lookupDepth [(entryId g, 0)] s = some (dx + blockEffectOf g x) := by
      intro x dx hx hnq s hs
      exfalso
      apply hnq
      have := lookupDepth_mem_keys [(entryId g, 0)] x dx hx
      simpa using this
    obtain ⟨hmono, hcons⟩ := stackdepthLoop_ok g _ _ _ final h hB₀
    refine ⟨hcons, ?_⟩
    intro x hr
    have hentry : lookupDepth [(entryId g, 0)] (entryId g) = some 0 := by
      unfold lookupDepth
      rw [List.find?_cons_of_pos _ (by simp)]
      rfl
    induction hr with
    | refl => exact ⟨0, hmono _ 0 hentry⟩
    | tail hab hedge ih =>
      obtain ⟨db, hb⟩ := ih
      exact ⟨db + blockEffectOf g _, hcons _ db hb _ hedge⟩
  · intro e h
    refine ⟨?_, ?_, ?_⟩
    · unfold computeStackdepth at h
      exact stackdepthLoop_error g _ _ _ e h
    · unfold _PyCfg_OptimizedCfgToInstructionSequence
      rw [h]
    · intro u consts nlocalsplus code_flags filename
      unfold cfgToCodeObject _PyCfg_OptimizedCfgToInstructionSequence
      rw [h]

/-- Witness for claim C7: the consistent graph `gOK` is accepted with a
consistent depth assignment, and the inconsistent graph `gBad` is rejected
with the internal stack-depth-mismatch error, which propagates so that no
Code Object is assembled. -/
theorem stackdepth_consistency_witness :
    ((∀ x dx, lookupDepth [(0, 0)] x = some dx →
        ∀ s ∈ succIds gOK x,
          lookupDepth [(0, 0)] s = some (dx + blockEffectOf gOK x)) ∧
      (∀ x, Reach gOK x → ∃ dx, lookupDepth [(0, 0)] x = some dx)) ∧
    ((∃ m, (CompileError.internal "stack depth mismatch between predecessors") =
        CompileError.internal m) ∧
      _PyCfg_OptimizedCfgToInstructionSequence gBad =
        .error (.internal "stack depth mismatch between predecessors") ∧
      (∀ u consts nlocalsplus code_flags filename,
        cfgToCodeObject gBad u consts nlocalsplus code_flags filename =
          .error (.internal "stack depth mismatch between predecessors"))) :=
  ⟨(stackdepth_consistency gOK).1 [(0, 0)] rfl,
   (stackdepth_consistency gBad).2
     (.internal "stack depth mismatch between predecessors") rfl⟩

end CPyCompile
